import Mathlib

/-!
Verification of the GEDCOM parser and family-tree layout engine.

The definitions below are a shallow embedding of the source's two core
modules: the GEDCOM parser (`parse`, `parseLine`, `parseName`,
`buildGraphData`, ...) and the hierarchical layout engine
(`calculateGenerations`, `calculatePositions`, `optimizePositions`).
Strings are modelled as `List Char`; JavaScript `Map`s as association
lists with insertion-order `set` semantics; JavaScript numbers as `Nat`,
`Int` or `ℚ` (the algorithms only perform exact arithmetic on the inputs
considered); the unbounded BFS worklist loop is given explicit fuel, with
`none` signalling that no amount of fuel suffices.
-/

namespace Ged

/-- Strings are modelled as lists of characters. -/
abbrev Str := List Char

/-- Coerce a string literal to its character list. -/
def str (s : String) : Str := s.data

/-- The JavaScript whitespace class, restricted to the ASCII range
(the source never relies on Unicode whitespace). -/
def isWs (c : Char) : Bool :=
  c = ' ' || c = '\t' || c = '\n' || c = '\r' || c = '\x0B' || c = '\x0C'

/-- ASCII digit test, as used by the `\d` class in the source's regexes. -/
def isDigit (c : Char) : Bool :=
  '0' ≤ c && c ≤ '9'

/-- Complement of the whitespace class (the `\S` regex class). -/
def nonWs (c : Char) : Bool := !isWs c

/-- The `[^@]` regex class. -/
def neAt (c : Char) : Bool := c ≠ '@'

/-- The `[^\/]` regex class. -/
def neSlash (c : Char) : Bool := c ≠ '/'

/-- JavaScript `String.prototype.trim`. -/
def trim (cs : Str) : Str :=
  ((cs.dropWhile isWs).reverse.dropWhile isWs).reverse

/-- The numeric value of a digit string, as computed by `parseInt(s, 10)`
on an all-digit string. -/
def natOfDigits (ds : Str) : Nat :=
  ds.foldl (fun a c => 10 * a + (c.toNat - '0'.toNat)) 0

/-- Split on the newline character; `content.split(/\r?\n/)` is this
followed by removing one carriage return before each matched newline. -/
def splitNL : Str → List Str
  | [] => [[]]
  | '\n' :: t => [] :: splitNL t
  | c :: t =>
    match splitNL t with
    | [] => [[c]]
    | p :: ps => (c :: p) :: ps

/-- Remove a single trailing carriage return from every piece that was
followed by a newline (all pieces but the last). -/
def fixCR : List Str → List Str
  | [] => []
  | [p] => [p]
  | p :: ps => (if p.getLast? = some '\r' then p.dropLast else p) :: fixCR ps

/-- `content.split(/\r?\n/)` from `parse`. -/
def splitLines (cs : Str) : List Str :=
  fixCR (splitNL cs)

/-- One tokenized GEDCOM line: `LEVEL [XREF] TAG [VALUE]`. -/
structure Token where
  level : Nat
  xref : Option Str
  tag : Str
  value : Str
deriving DecidableEq, Repr

/-- The optional `(@[^@]+@)\s+` xref group of `parseLine`'s regex, which
participates in the match only when the closing delimiter, a nonempty
body, trailing whitespace and a following tag character are all present
(otherwise the regex backtracks and the text is consumed by the tag).
Returns the xref including its delimiters plus the rest of the line. -/
def tryXref (cs : Str) : Option (Str × Str) :=
  match cs with
  | '@' :: rest =>
    let inner := rest.takeWhile neAt
    match rest.dropWhile neAt with
    | '@' :: r2 =>
      if inner.isEmpty then none
      else
        let ws := r2.takeWhile isWs
        let r3 := r2.dropWhile isWs
        if ws.isEmpty || r3.isEmpty then none
        else some ('@' :: (inner ++ ['@']), r3)
    | _ => none
  | _ => none

/-- `parseLine` from the source: match
`^(\d+)\s+(?:(@[^@]+@)\s+)?(\S+)(?:\s+(.*))?$` and return the token, or
`none` when the line does not have the `LEVEL [XREF] TAG [VALUE]` shape. -/
def parseLine (cs : Str) : Option Token :=
  let ds := cs.takeWhile isDigit
  let r1 := cs.dropWhile isDigit
  if ds.isEmpty then none
  else
    let ws1 := r1.takeWhile isWs
    let r2 := r1.dropWhile isWs
    if ws1.isEmpty then none
    else
      match tryXref r2 with
      | some (x, r3) =>
        let tag := r3.takeWhile nonWs
        let rest := r3.dropWhile nonWs
        some ⟨natOfDigits ds, some x, tag, rest.dropWhile isWs⟩
      | none =>
        if r2.isEmpty then none
        else
          let tag := r2.takeWhile nonWs
          let rest := r2.dropWhile nonWs
          some ⟨natOfDigits ds, none, tag, rest.dropWhile isWs⟩

/-- A parsed personal name. -/
structure NameParts where
  full : Str
  given : Str
  surname : Str
  suffix : Str
deriving DecidableEq, Repr

/-- `parseName` from the source: the regex `^([^\/]*)\/?([^\/]*)\/?(.*)$`
always matches (so the source's no-match fallback is dead code); the
groups are the text before the first slash, the text between the first
and second slash, and everything after the second slash. `full` is the
input with every slash removed, trimmed. -/
def parseName (cs : Str) : NameParts :=
  let g1 := cs.takeWhile neSlash
  let r1 := cs.dropWhile neSlash
  let r1b := match r1 with
    | '/' :: t => t
    | other => other
  let g2 := r1b.takeWhile neSlash
  let r2 := r1b.dropWhile neSlash
  let g3 := match r2 with
    | '/' :: t => t
    | other => other
  { full := trim (cs.filter neSlash)
    given := trim g1
    surname := trim g2
    suffix := trim g3 }

/-- A birth or death event: `{ date: '', place: '', type: '' }`. -/
structure EventInfo where
  date : Str
  place : Str
  etype : Str
deriving DecidableEq, Repr

/-- A marriage or divorce event: `{ date: '', place: '' }`. -/
structure FamEvent where
  date : Str
  place : Str
deriving DecidableEq, Repr

/-- An `INDI` record, with the fields of the object literal created by
`parse` at a level-0 `INDI` line. -/
structure Individual where
  id : Str
  names : List NameParts
  sex : Str
  birth : Option EventInfo
  death : Option EventInfo
  occupation : Str
  nationality : Str
  titles : List Str
  notes : List Str
  familyChild : Option Str
  familySpouse : List Str
deriving DecidableEq, Repr

/-- A `FAM` record. -/
structure Family where
  id : Str
  husband : Option Str
  wife : Option Str
  children : List Str
  marriage : Option FamEvent
  divorce : Option FamEvent
deriving DecidableEq, Repr

/-- The fresh `INDI` record literal. -/
def newIndividual (xref : Str) : Individual :=
  ⟨xref, [], [], none, none, [], [], [], [], none, []⟩

/-- The fresh `FAM` record literal. -/
def newFamily (xref : Str) : Family :=
  ⟨xref, none, none, [], none, none⟩

/-- The record currently under construction (`currentRecord`), which is
`null`, an individual, a family, or the header placeholder. -/
inductive CurRec where
  | noRec : CurRec
  | indi : Individual → CurRec
  | fam : Family → CurRec
  | hd : CurRec
deriving DecidableEq, Repr

/-- An ancestor-stack entry.  The source also stores the line's value and
a record back-reference in each entry, but no code path ever reads them,
so only the level and tag are modelled. -/
structure StackEntry where
  level : Nat
  tag : Str
deriving DecidableEq, Repr

/-- The `while (stack.length > 0 && stack[stack.length - 1].level >= level)
stack.pop()` loop from `parse`. -/
def popGE : List StackEntry → Nat → List StackEntry
  | [], _ => []
  | e :: s, l => if l ≤ e.level then popGE s l else e :: s

/-- Lookup in a JavaScript `Map` modelled as an association list. -/
def mapFind {κ α : Type} [DecidableEq κ] (m : List (κ × α)) (k : κ) : Option α :=
  match m with
  | [] => none
  | (k', v) :: t => if k' = k then some v else mapFind t k

/-- `Map.prototype.set`: overwrite in place if the key is present
(keeping its insertion position), otherwise append. -/
def mapSet {κ α : Type} [DecidableEq κ] (m : List (κ × α)) (k : κ) (v : α) :
    List (κ × α) :=
  match m with
  | [] => [(k, v)]
  | (k', v') :: t => if k' = k then (k, v) :: t else (k', v') :: mapSet t k v

/-- The case labels of `processIndividualTag`'s `switch` statement. -/
inductive ITag where
  | tName | tSex | tBirt | tDeat | tDate | tPlac | tType
  | tOccu | tNati | tTitl | tNote | tFamc | tFams | tOther
deriving DecidableEq, Repr

/-- The dispatch of `processIndividualTag`'s `switch` on the tag
string. -/
def iTagOf (tag : Str) : ITag :=
  if tag = str "NAME" then .tName
  else if tag = str "SEX" then .tSex
  else if tag = str "BIRT" then .tBirt
  else if tag = str "DEAT" then .tDeat
  else if tag = str "DATE" then .tDate
  else if tag = str "PLAC" then .tPlac
  else if tag = str "TYPE" then .tType
  else if tag = str "OCCU" then .tOccu
  else if tag = str "NATI" then .tNati
  else if tag = str "TITL" then .tTitl
  else if tag = str "NOTE" then .tNote
  else if tag = str "FAMC" then .tFamc
  else if tag = str "FAMS" then .tFams
  else .tOther

/-- `processIndividualTag` from the source. -/
def processIndividualTag (r : Individual) (tag value : Str)
    (parentTag : Option Str) : Individual :=
  match iTagOf tag with
  | .tName => { r with names := r.names ++ [parseName value] }
  | .tSex => { r with sex := value }
  | .tBirt => { r with birth := some ⟨[], [], []⟩ }
  | .tDeat => { r with death := some ⟨[], [], []⟩ }
  | .tDate =>
    if parentTag = some (str "BIRT") then
      match r.birth with
      | some b => { r with birth := some { b with date := value } }
      | none => r
    else if parentTag = some (str "DEAT") then
      match r.death with
      | some d => { r with death := some { d with date := value } }
      | none => r
    else r
  | .tPlac =>
    if parentTag = some (str "BIRT") then
      match r.birth with
      | some b => { r with birth := some { b with place := value } }
      | none => r
    else if parentTag = some (str "DEAT") then
      match r.death with
      | some d => { r with death := some { d with place := value } }
      | none => r
    else r
  | .tType =>
    if parentTag = some (str "BIRT") then
      match r.birth with
      | some b => { r with birth := some { b with etype := value } }
      | none => r
    else if parentTag = some (str "DEAT") then
      match r.death with
      | some d => { r with death := some { d with etype := value } }
      | none => r
    else r
  | .tOccu => { r with occupation := value }
  | .tNati => { r with nationality := value }
  | .tTitl => { r with titles := r.titles ++ [value] }
  | .tNote => { r with notes := r.notes ++ [value] }
  | .tFamc => { r with familyChild := some value }
  | .tFams => { r with familySpouse := r.familySpouse ++ [value] }
  | .tOther => r

/-- `processFamilyTag` from the source. -/
def processFamilyTag (r : Family) (tag value : Str)
    (parentTag : Option Str) : Family :=
  match tag with
  | ['H', 'U', 'S', 'B'] => { r with husband := some value }
  | ['W', 'I', 'F', 'E'] => { r with wife := some value }
  | ['C', 'H', 'I', 'L'] => { r with children := r.children ++ [value] }
  | ['M', 'A', 'R', 'R'] => { r with marriage := some ⟨[], []⟩ }
  | ['D', 'I', 'V'] => { r with divorce := some ⟨[], []⟩ }
  | ['D', 'A', 'T', 'E'] =>
    if parentTag = some (str "MARR") then
      match r.marriage with
      | some m => { r with marriage := some { m with date := value } }
      | none => r
    else if parentTag = some (str "DIV") then
      match r.divorce with
      | some d => { r with divorce := some { d with date := value } }
      | none => r
    else r
  | ['P', 'L', 'A', 'C'] =>
    if parentTag = some (str "MARR") then
      match r.marriage with
      | some m => { r with marriage := some { m with place := value } }
      | none => r
    else if parentTag = some (str "DIV") then
      match r.divorce with
      | some d => { r with divorce := some { d with place := value } }
      | none => r
    else r
  | _ => r

/-- `processTag`: dispatch on the open record's type; `HEAD` records and
the absent record are untouched. -/
def processTag (c : CurRec) (tag value : Str) (parentTag : Option Str) : CurRec :=
  match c with
  | .indi i => .indi (processIndividualTag i tag value parentTag)
  | .fam f => .fam (processFamilyTag f tag value parentTag)
  | other => other

/-- The parser state threaded through the line loop of `parse`. -/
structure PState where
  individuals : List (Str × Individual)
  families : List (Str × Family)
  headerSeen : Bool
  cur : CurRec
  stack : List StackEntry
deriving DecidableEq, Repr

/-- The parser's initial state. -/
def initState : PState := ⟨[], [], false, .noRec, []⟩

/-- `saveCurrentRecord`: store the record under construction into its
collection (keyed by its id); the header is an opaque placeholder. -/
def saveCurrentRecord (st : PState) : PState :=
  match st.cur with
  | .indi i => { st with individuals := mapSet st.individuals i.id i }
  | .fam f => { st with families := mapSet st.families f.id f }
  | .hd => { st with headerSeen := true }
  | .noRec => st

/-- One iteration of the line loop of `parse`: trim, skip empty and
unparsable lines, open/close records at level 0, and otherwise route the
tag through the ancestor stack. -/
def lineStep (st : PState) (rawLine : Str) : PState :=
  let line := trim rawLine
  if line.isEmpty then st
  else
    match parseLine line with
    | none => st
    | some t =>
      if t.level = 0 then
        let st1 := saveCurrentRecord st
        let cur' : CurRec :=
          if t.xref.isSome ∧ t.tag = str "INDI" then .indi (newIndividual (t.xref.getD []))
          else if t.xref.isSome ∧ t.tag = str "FAM" then .fam (newFamily (t.xref.getD []))
          else if t.tag = str "HEAD" then .hd
          else .noRec
        { st1 with cur := cur', stack := [⟨0, t.tag⟩] }
      else
        match st.cur with
        | .noRec => st
        | c =>
          let popped := popGE st.stack t.level
          let parentTag := popped.head?.map (·.tag)
          { st with cur := processTag c t.tag t.value parentTag
                    stack := ⟨t.level, t.tag⟩ :: popped }

/-- `parse` from the source: split into lines, run the state machine,
save the final open record. -/
def parse (content : Str) : PState :=
  saveCurrentRecord ((splitLines content).foldl lineStep initState)

/-- `getDisplayName`. -/
def getDisplayName (ind : Individual) : Str :=
  match ind.names with
  | [] => str "Unknown"
  | n :: _ =>
    if !n.full.isEmpty then n.full
    else if !n.given.isEmpty then n.given
    else str "Unknown"

/-- `getLifespan`. -/
def getLifespan (ind : Individual) : Str :=
  let b := (ind.birth.map (·.date)).getD []
  let d := (ind.death.map (·.date)).getD []
  if !b.isEmpty || !d.isEmpty then
    (if b.isEmpty then str "?" else b) ++ str " - " ++ d
  else []

/-- A layout node derived from an individual (the source also keeps a
back-reference `data` to the full record; it is carried here too). -/
structure Node where
  id : Str
  name : Str
  sex : Str
  birth : Option EventInfo
  death : Option EventInfo
  lifespan : Str
  nationality : Str
  titles : List Str
  occupation : Str
  data : Individual
deriving DecidableEq, Repr

/-- A relationship link; `ltype` is the source's `type` string, either
`marriage` or `parent-child`. -/
structure Link where
  source : Str
  target : Str
  ltype : Str
  familyId : Str
deriving DecidableEq, Repr

/-- The `marriage` link type string. -/
def marriageT : Str := str "marriage"

/-- The `parent-child` link type string. -/
def parentChildT : Str := str "parent-child"

/-- The node built from one individual in `buildGraphData`. -/
def nodeOf (id : Str) (ind : Individual) : Node :=
  ⟨id, getDisplayName ind, ind.sex, ind.birth, ind.death, getLifespan ind,
    ind.nationality, ind.titles, ind.occupation, ind⟩

/-- Whether an id resolves in the `nodeMap` of `buildGraphData`. -/
def hasNode (nodes : List Node) (k : Str) : Bool :=
  nodes.any (fun n => n.id = k)

/-- Resolve an optional spouse reference against the node map
(`family.husband ? nodeMap.get(family.husband) : null`). -/
def resolveRef (nodes : List Node) (o : Option Str) : Option Str :=
  match o with
  | none => none
  | some k => if hasNode nodes k then some k else none

/-- The links contributed by a single family: one marriage link when both
spouses resolve, then, for each resolving child, a link from the father
and one from the mother when they resolve. -/
def familyLinks (nodes : List Node) (fid : Str) (f : Family) : List Link :=
  let h := resolveRef nodes f.husband
  let w := resolveRef nodes f.wife
  let ml : List Link :=
    match h, w with
    | some hh, some ww => [⟨hh, ww, marriageT, fid⟩]
    | _, _ => []
  ml ++ f.children.foldl (fun acc c =>
    if hasNode nodes c then
      let acc1 := match h with
        | some hh => acc ++ [⟨hh, c, parentChildT, fid⟩]
        | none => acc
      match w with
      | some ww => acc1 ++ [⟨ww, c, parentChildT, fid⟩]
      | none => acc1
    else acc) []

/-- `buildGraphData`: one node per individual, links per family. -/
def buildGraphData (individuals : List (Str × Individual))
    (families : List (Str × Family)) : List Node × List Link :=
  let nodes := individuals.map (fun p => nodeOf p.1 p.2)
  (nodes, families.foldl (fun acc p => acc ++ familyLinks nodes p.1 p.2) [])

/-- Add one edge endpoint to an adjacency map: create the key with an
empty list when absent, then push. -/
def addEdgeTo (m : List (Str × List Str)) (k v : Str) : List (Str × List Str) :=
  match mapFind m k with
  | none => mapSet m k [v]
  | some l => mapSet m k (l ++ [v])

/-- The `(parent, child)` pairs of the `parent-child` links, in order. -/
def pcPairs (links : List Link) : List (Str × Str) :=
  links.filterMap (fun l =>
    if l.ltype = parentChildT then some (l.source, l.target) else none)

/-- The `childToParents` adjacency map of `calculateGenerations`. -/
def childToParents (links : List Link) : List (Str × List Str) :=
  (pcPairs links).foldl (fun m p => addEdgeTo m p.2 p.1) []

/-- The `parentToChildren` adjacency map of `calculateGenerations`. -/
def parentToChildren (links : List Link) : List (Str × List Str) :=
  (pcPairs links).foldl (fun m p => addEdgeTo m p.1 p.2) []

/-- The root individuals: nodes absent from the child-to-parents map. -/
def rootIds (nodes : List Node) (links : List Link) : List Str :=
  (nodes.filter (fun n => (mapFind (childToParents links) n.id).isNone)).map (·.id)

/-- The BFS worklist state: the queue and the generation map. -/
structure BfsState where
  queue : List Str
  gens : List (Str × Int)
deriving DecidableEq, Repr

/-- Handling of one child in the BFS: assign generation `gp + 1` and
enqueue when unassigned, re-assign and re-enqueue when `gp + 1` beats the
current assignment, otherwise leave untouched. -/
def processChild (gp : Int) (s : BfsState) (c : Str) : BfsState :=
  match mapFind s.gens c with
  | none => ⟨s.queue ++ [c], mapSet s.gens c (gp + 1)⟩
  | some e => if gp + 1 > e then ⟨s.queue ++ [c], mapSet s.gens c (gp + 1)⟩ else s

/-- One iteration of the BFS `while` loop: dequeue a node, read its
generation once, and process each of its children in order. -/
def bfsStep (p2c : List (Str × List Str)) (s : BfsState) : BfsState :=
  match s.queue with
  | [] => s
  | p :: rest =>
    let gp := (mapFind s.gens p).getD 0
    ((mapFind p2c p).getD []).foldl (processChild gp) ⟨rest, s.gens⟩

/-- The BFS `while (queue.length > 0)` loop, with explicit fuel: `none`
means the given number of iterations did not empty the queue. -/
def bfsLoop (p2c : List (Str × List Str)) : Nat → BfsState → Option (List (Str × Int))
  | 0, s => if s.queue.isEmpty then some s.gens else none
  | f + 1, s => if s.queue.isEmpty then some s.gens else bfsLoop p2c f (bfsStep p2c s)

/-- The initial BFS state: all roots at generation 0, queued in order. -/
def initBfs (nodes : List Node) (links : List Link) : BfsState :=
  ⟨rootIds nodes links, (rootIds nodes links).foldl (fun g r => mapSet g r 0) []⟩

/-- JavaScript word-character test (the `\b` boundary class). -/
def isWordChar (c : Char) : Bool :=
  ('A' ≤ c && c ≤ 'Z') || ('a' ≤ c && c ≤ 'z') || isDigit c || c = '_'

/-- `extractYear`'s regex `\b(\d{3,4})\b`: scanning left to right, the
first maximal digit run of length exactly 3 or 4 that sits between word
boundaries (a longer run offers no match position inside it because there
is no boundary between two digits).  `prev` is the character before the
current position. -/
def findYear (prev : Option Char) : Str → Option Nat
  | [] => none
  | c :: t =>
    let run := (c :: t).takeWhile isDigit
    let rest := (c :: t).dropWhile isDigit
    let boundaryBefore := match prev with
      | none => true
      | some p => !isWordChar p
    if boundaryBefore && (run.length == 3 || run.length == 4) &&
        (rest.isEmpty || rest.head?.map isWordChar == some false) then
      some (natOfDigits run)
    else findYear (some c) t

/-- `extractYear`: `null` for an absent or empty date string, otherwise
the first 3-4 digit year (an all-zero year is falsy in the source and
leads to the same generation-0 fallback as no year, see `estimateGen`). -/
def extractYear (d : Option Str) : Option Nat :=
  match d with
  | none => none
  | some ds => findYear none ds

/-- The fallback generation for a node the BFS never reached:
`max(0, floor((birthYear - 1000) / 30))`, or 0 with no usable year.
`Int.fdiv` is floor division, matching `Math.floor` of the exact
quotient; a year of 0 is falsy in the source and takes the no-year
branch, which also yields 0, so it needs no special case. -/
def estimateGen (n : Node) : Int :=
  match extractYear (n.birth.map (·.date)) with
  | some y => max 0 (Int.fdiv ((y : Int) - 1000) 30)
  | none => 0

/-- The disconnected-node pass: give every node still unassigned its
estimated generation. -/
def fallbackGens (nodes : List Node) (g : List (Str × Int)) : List (Str × Int) :=
  nodes.foldl (fun g n =>
    match mapFind g n.id with
    | none => mapSet g n.id (estimateGen n)
    | some _ => g) g

/-- The minimum assigned generation (`Infinity`, i.e. `none`, on an empty
map). -/
def minVal (g : List (Str × Int)) : Option Int :=
  match g with
  | [] => none
  | (_, v) :: t => some (t.foldl (fun a p => min a p.2) v)

/-- The normalization pass: subtract the minimum generation from every
assignment unless it is already 0 (or the map is empty). -/
def normalizeGens (g : List (Str × Int)) : List (Str × Int) :=
  match minVal g with
  | none => g
  | some m => if m = 0 then g else g.map (fun p => (p.1, p.2 - m))

/-- `calculateGenerations`, with explicit fuel for the BFS loop: build
the adjacency maps, BFS from the roots, fall back to birth-year
estimates for disconnected nodes, then normalize. -/
def calculateGenerations (fuel : Nat) (nodes : List Node) (links : List Link) :
    Option (List (Str × Int)) :=
  (bfsLoop (parentToChildren links) fuel (initBfs nodes links)).map
    (fun g => normalizeGens (fallbackGens nodes g))

/-- `config.horizontalSpacing`. -/
def horizontalSpacing : ℚ := 160

/-- `config.verticalSpacing`. -/
def verticalSpacing : ℚ := 120

/-- Insert an element into a list before the first element that compares
strictly after it (`lt x y` models `comparator(x, y) < 0`). -/
def insertCmp {α : Type} (lt : α → α → Bool) (x : α) : List α → List α
  | [] => [x]
  | y :: ys => if lt x y then x :: y :: ys else y :: insertCmp lt x ys

/-- `Array.prototype.sort` modelled as a stable insertion sort (the
ECMAScript specification requires the sort to be stable; for a consistent
comparator this pins the result down uniquely, and for an inconsistent
one this is one concrete compliant implementation). -/
def sortCmp {α : Type} (lt : α → α → Bool) (l : List α) : List α :=
  l.foldl (fun acc x => insertCmp lt x acc) []

/-- The spouse-pair lookup built from marriage links: both directions are
recorded, last write wins. -/
def spousePairs (links : List Link) : List (Str × Str) :=
  links.foldl (fun m l =>
    if l.ltype = marriageT then mapSet (mapSet m l.source l.target) l.target l.source
    else m) []

/-- The generation a node is grouped under:
`this.generations.get(node.id) || 0`. -/
def genOfNode (gens : List (Str × Int)) (n : Node) : Int :=
  (mapFind gens n.id).getD 0

/-- Group the nodes by generation, keys in first-seen order, each group
in node order. -/
def generationGroups (gens : List (Str × Int)) (nodes : List Node) :
    List (Int × List Node) :=
  nodes.foldl (fun m n =>
    let g := genOfNode gens n
    match mapFind m g with
    | none => mapSet m g [n]
    | some l => mapSet m g (l ++ [n])) []

/-- `String.prototype.localeCompare` modelled as code-point lexicographic
comparison (strictly smaller). -/
def strLt : Str → Str → Bool
  | [], [] => false
  | [], _ :: _ => true
  | _ :: _, [] => false
  | a :: as, b :: bs => if a < b then true else if b < a then false else strLt as bs

/-- The within-row comparator of `calculatePositions`, as a strict
`comparator(a, b) < 0` test: `-1` when `a`'s spouse is `b`, `1` when
`b`'s spouse is `a`, otherwise compare display names.  Note that for a
spouse pair this returns `true` in both argument orders, so it is not a
consistent comparator. -/
def rowLt (sp : List (Str × Str)) (a b : Node) : Bool :=
  if mapFind sp a.id = some b.id then true
  else if mapFind sp b.id = some a.id then false
  else strLt a.name b.name

/-- The generation rows of `calculatePositions`, sorted: generation keys
ascending, each row ordered by the spouse/name comparator. -/
def sortedRows (nodes : List Node) (links : List Link) (gens : List (Str × Int)) :
    List (Int × List Node) :=
  let groups := generationGroups gens nodes
  let sg := sortCmp (fun a b => decide (a < b)) (groups.map (·.1))
  let sp := spousePairs links
  sg.map (fun g => (g, sortCmp (rowLt sp) ((mapFind groups g).getD [])))

/-- Point update of a coordinate assignment. -/
def setPos (p : Str → ℚ) (k : Str) (v : ℚ) : Str → ℚ :=
  fun j => if j = k then v else p j

/-- The layout state: the generation rows (in ascending generation
order; the separation passes re-sort them in place) and the x coordinate
of every node id.  The y coordinate is set once from the row index and
never touched afterwards, so it is not threaded through the passes. -/
structure LState where
  rows : List (List Node)
  pos : Str → ℚ

/-- Initial x positions of one row: evenly spaced slots centered at 0. -/
def initRowPos (pos : Str → ℚ) (row : List Node) : Str → ℚ :=
  let len : ℚ := row.length
  let startX := -(len * horizontalSpacing) / 2
  (row.enum).foldl (fun p iv =>
    setPos p iv.2.id (startX + ((iv.1 : ℚ) + 1/2) * horizontalSpacing)) pos

/-- The first phase of `calculatePositions`: group, sort and assign
initial coordinates. -/
def calcPositionsInit (nodes : List Node) (links : List Link)
    (gens : List (Str × Int)) : LState :=
  let rows := (sortedRows nodes links gens).map (·.2)
  ⟨rows, rows.foldl initRowPos (fun _ => 0)⟩

/-- The children of a node that resolve to known nodes
(`children.map(id => nodeById.get(id)).filter(n => n)`). -/
def resolvedChildren (nodes : List Node) (links : List Link) (id : Str) : List Str :=
  ((mapFind (parentToChildren links) id).getD []).filter (hasNode nodes)

/-- One node's pull move: blend its x 30/70 toward the mean x of its
resolved children, if it has any. -/
def pullNode (nodes : List Node) (links : List Link) (pos : Str → ℚ) (n : Node) :
    Str → ℚ :=
  let cs := resolvedChildren nodes links n.id
  if cs.isEmpty then pos
  else
    let avg := (cs.map pos).sum / (cs.length : ℚ)
    setPos pos n.id (pos n.id * (3/10) + avg * (7/10))

/-- The centering pull pass over all rows, ascending. -/
def pullPass (nodes : List Node) (links : List Link) (st : LState) : LState :=
  { st with pos := st.rows.foldl (fun p row => row.foldl (pullNode nodes links) p) st.pos }

/-- The overlap-resolution scan: walk the row left to right and push any
node closer than `horizontalSpacing` to its predecessor out to exactly
that distance. -/
def adjustGo (pos : Str → ℚ) (prev : Str) : List Node → (Str → ℚ)
  | [] => pos
  | c :: t =>
    let px := pos prev
    let pos' := if pos c.id - px < horizontalSpacing then
        setPos pos c.id (px + horizontalSpacing)
      else pos
    adjustGo pos' c.id t

/-- Separation of one row: re-sort by current x, then push overlapping
neighbours apart. -/
def sepRow (pos : Str → ℚ) (row : List Node) : List Node × (Str → ℚ) :=
  let sorted := sortCmp (fun a b => decide (pos a.id < pos b.id)) row
  match sorted with
  | [] => ([], pos)
  | h :: t => (sorted, adjustGo pos h.id t)

/-- The separation pass over the rows in order, threading the position
mutations through: each row is re-sorted and pushed apart under the
positions left by the previous rows. -/
def sepRows (pos : Str → ℚ) : List (List Node) → List (List Node) × (Str → ℚ)
  | [] => ([], pos)
  | row :: rest =>
    let r := sepRow pos row
    let rr := sepRows r.2 rest
    (r.1 :: rr.1, rr.2)

/-- The separation pass over all rows. -/
def sepPass (st : LState) : LState :=
  ⟨(sepRows st.pos st.rows).1, (sepRows st.pos st.rows).2⟩

/-- One optimization pass: pull parents toward children, then separate. -/
def onePass (nodes : List Node) (links : List Link) (st : LState) : LState :=
  sepPass (pullPass nodes links st)

/-- The final centering shift: subtract the midpoint of the horizontal
bounding box (computed over the node list) from every x coordinate; with
no nodes at all, nothing is shifted. -/
def centerPass (nodes : List Node) (st : LState) : LState :=
  match nodes with
  | [] => st
  | n :: t =>
    let minX := t.foldl (fun a m => min a (st.pos m.id)) (st.pos n.id)
    let maxX := t.foldl (fun a m => max a (st.pos m.id)) (st.pos n.id)
    let off := (minX + maxX) / 2
    { st with pos := fun k => st.pos k - off }

/-- `optimizePositions`: three pull-then-separate passes followed by the
centering shift. -/
def optimizePositions (nodes : List Node) (links : List Link) (st : LState) : LState :=
  centerPass nodes (onePass nodes links (onePass nodes links (onePass nodes links st)))

/-- `calculatePositions` followed by its `optimizePositions` second
phase. -/
def calculatePositions (nodes : List Node) (links : List Link)
    (gens : List (Str × Int)) : LState :=
  optimizePositions nodes links (calcPositionsInit nodes links gens)

/-- The ancestor stack obtained from the opening level-0 line (tag `t0`)
followed by a sequence of subordinate lines processed exactly as in
`lineStep`: pop the entries with level ≥ the new line's level with
`popGE`, then push the new entry. -/
def runStack (t0 : Str) (hist : List StackEntry) : List StackEntry :=
  hist.foldl (fun st e => e :: popGE st e.level) [⟨0, t0⟩]

/-- The most recent among a record's processed entries whose level is
strictly below `l`. -/
def lastLower (l : Nat) (entries : List StackEntry) : Option StackEntry :=
  entries.reverse.find? (fun e => decide (e.level < l))

/-- The node list `processGedcom` hands to the layout stage for a given
raw content. -/
def nodesOf (content : Str) : List Node :=
  (buildGraphData (parse content).individuals (parse content).families).1

/-- The link list `processGedcom` hands to the layout stage. -/
def linksOf (content : Str) : List Link :=
  (buildGraphData (parse content).individuals (parse content).families).2

/-- A document with the spec's two-individual shape: `I1` with no
parents, `I2` a child of `I1` via family `F1`. -/
def exampleDoc : Str :=
  str "0 @I1@ INDI\n1 NAME One\n1 BIRT\n2 DATE 1 JAN 1900\n0 @I2@ INDI\n1 NAME Two\n0 @F1@ FAM\n1 HUSB @I1@\n1 CHIL @I2@"

/-- A document with three individuals in one generation row: `I1` named
B, and the married couple `I2` (named C) and `I3` (named A). -/
def spouseDoc : Str :=
  str "0 @I1@ INDI\n1 NAME B\n0 @I2@ INDI\n1 NAME C\n0 @I3@ INDI\n1 NAME A\n0 @F1@ FAM\n1 HUSB @I2@\n1 WIFE @I3@"

/-- A document whose parent-child links form a cycle reachable from a
root: `R` is a parent of `A`, `A` of `B`, and `B` of `A` again. -/
def cyclicDoc : Str :=
  str "0 @R@ INDI\n0 @A@ INDI\n0 @B@ INDI\n0 @F1@ FAM\n1 HUSB @R@\n1 CHIL @A@\n0 @F2@ FAM\n1 HUSB @A@\n1 CHIL @B@\n0 @F3@ FAM\n1 HUSB @B@\n1 CHIL @A@"

/-- A document with two level-0 `INDI` records carrying the same xref. -/
def dupDoc : Str :=
  str "0 @I1@ INDI\n1 NAME First\n0 @I1@ INDI\n1 NAME Second"

/-- A document whose `SEX` line carries a value other than M or F. -/
def sexDoc : Str :=
  str "0 @I1@ INDI\n1 SEX X"

/-- The xref of the root individual of `cyclicDoc`. -/
def rId : Str := str "@R@"

/-- The xref of individual `A` of `cyclicDoc`. -/
def aId : Str := str "@A@"

/-- The xref of individual `B` of `cyclicDoc`. -/
def bId : Str := str "@B@"

/-- The generation map shape the BFS keeps cycling through on
`cyclicDoc`: `R` at 0, `A` at `a`, `B` at `b`. -/
def cycGens (a b : Int) : List (Str × Int) :=
  [(rId, 0), (aId, a), (bId, b)]

/-- The parent-to-children adjacency of `cyclicDoc`. -/
def cycAdj : List (Str × List Str) :=
  [(rId, [aId]), (aId, [bId]), (bId, [aId])]

/-- A root-to-node path of a given length along a directed edge list:
`ReachN E r n L` says `n` is reachable from `r` via `L` edges of `E`. -/
inductive ReachN (E : List (Str × Str)) : Str → Str → Nat → Prop where
  | refl (n : Str) : ReachN E n n 0
  | step {r p c : Str} {k : Nat} :
      ReachN E r p k → (p, c) ∈ E → ReachN E r c (k + 1)

/-- The invariant the generation BFS maintains: every queued id is
assigned; every assigned generation is the length of an actual
root-to-node path; for every edge whose parent is assigned, either the
child is already assigned at least one deeper, or the parent is still
queued for (re)processing; and every root stays at generation 0. -/
def BfsInv (E : List (Str × Str)) (roots : List Str) (s : BfsState) : Prop :=
  (∀ q ∈ s.queue, ∃ g : Int, mapFind s.gens q = some g)
  ∧ (∀ p ∈ s.gens, ∃ r ∈ roots, ∃ L : Nat,
      Prod.snd p = (L : Int) ∧ ReachN E r (Prod.fst p) L)
  ∧ (∀ p c : Str, (p, c) ∈ E → ∀ gp : Int, mapFind s.gens p = some gp →
      (∃ gc : Int, mapFind s.gens c = some gc ∧ gp + 1 ≤ gc) ∨ p ∈ s.queue)
  ∧ (∀ r ∈ roots, mapFind s.gens r = some 0)

/-- All node ids of the layout rows, row-major. -/
def joinIds (rows : List (List Node)) : List Str :=
  (rows.map (fun r => r.map (·.id))).flatten

/-- Successive elements are at least one `horizontalSpacing` apart, left
to right. -/
def GapChain (pos : Str → ℚ) (ids : List Str) : Prop :=
  List.Chain' (fun a b => horizontalSpacing ≤ pos b - pos a) ids

/-- The string `s` is the verbatim value of a `SEX` line `l`. -/
def lineSex (l : Str) (s : Str) : Prop :=
  ∃ t : Token, parseLine (trim l) = some t ∧ t.tag = str "SEX" ∧ t.value = s

/-- An individual's sex field is either still the empty initial value or
the verbatim value of some `SEX` line of the document. -/
def SexFromDoc (lines : List Str) (s : Str) : Prop :=
  s = [] ∨ ∃ l ∈ lines, lineSex l s

end Ged

open Ged

section Helpers

theorem takeWhile_append_all {p : Char → Bool} {a : Str} {b : Str}
    (h : ∀ c ∈ a, p c = true) : (a ++ b).takeWhile p = a ++ b.takeWhile p := by
  induction a with
  | nil => simp
  | cons x xs ih =>
    have hx : p x = true := h x (by simp)
    simp [List.takeWhile_cons, hx]
    exact ih (fun c hc => h c (by simp [hc]))

theorem dropWhile_append_all {p : Char → Bool} {a : Str} {b : Str}
    (h : ∀ c ∈ a, p c = true) : (a ++ b).dropWhile p = b.dropWhile p := by
  induction a with
  | nil => simp
  | cons x xs ih =>
    have hx : p x = true := h x (by simp)
    simp [List.dropWhile_cons, hx]
    exact ih (fun c hc => h c (by simp [hc]))

theorem takeWhile_all {p : Char → Bool} {a : Str}
    (h : ∀ c ∈ a, p c = true) : a.takeWhile p = a := by
  simpa using takeWhile_append_all (a := a) (b := []) h

theorem dropWhile_all {p : Char → Bool} {a : Str}
    (h : ∀ c ∈ a, p c = true) : a.dropWhile p = [] := by
  simpa using dropWhile_append_all (a := a) (b := []) h

theorem noSlash_all {a : Str} (h : '/' ∉ a) :
    ∀ c ∈ a, neSlash c = true := by
  intro c hc
  simp only [neSlash, decide_eq_true_eq, ne_eq]
  exact fun h' => h (h' ▸ hc)

@[simp] theorem neSlash_slash : neSlash '/' = false := rfl

@[simp] theorem trim_nil : trim [] = [] := rfl

end Helpers

section ClaimC8

/-- Claim C8: parsing `"John /Doe/ Jr."` yields given `"John"`, surname
`"Doe"`, suffix `"Jr."` and full `"John Doe Jr."`; in general, name
parsing extracts the (trimmed) text before the first slash, the text
between the first two slashes, and the trailing text after the second
slash, with the full name being the input stripped of all slashes and
trimmed; a missing closing delimiter and empty segments are handled
without error. -/
theorem claim_C8 :
    (parseName (str "John /Doe/ Jr.") =
      ⟨str "John Doe Jr.", str "John", str "Doe", str "Jr."⟩)
    ∧ (∀ a b c : Str, '/' ∉ a → '/' ∉ b →
        parseName (a ++ '/' :: (b ++ '/' :: c)) =
          ⟨trim (a ++ (b ++ c.filter neSlash)),
            trim a, trim b, trim c⟩)
    ∧ (∀ a b : Str, '/' ∉ a → '/' ∉ b →
        parseName (a ++ '/' :: b) = ⟨trim (a ++ b), trim a, trim b, []⟩)
    ∧ (∀ a : Str, '/' ∉ a → parseName a = ⟨trim a, trim a, [], []⟩) := by
  refine ⟨by decide, ?_, ?_, ?_⟩
  · intro a b c ha hb
    simp [parseName, takeWhile_append_all (noSlash_all ha),
      dropWhile_append_all (noSlash_all ha), takeWhile_append_all (noSlash_all hb),
      dropWhile_append_all (noSlash_all hb), List.takeWhile_cons, List.dropWhile_cons,
      List.filter_append, List.filter_eq_self.mpr (noSlash_all ha),
      List.filter_eq_self.mpr (noSlash_all hb)]
  · intro a b ha hb
    simp [parseName, takeWhile_append_all (noSlash_all ha),
      dropWhile_append_all (noSlash_all ha), takeWhile_all (noSlash_all hb),
      dropWhile_all (noSlash_all hb), List.takeWhile_cons, List.dropWhile_cons,
      List.filter_append, List.filter_eq_self.mpr (noSlash_all ha),
      List.filter_eq_self.mpr (noSlash_all hb)]
  · intro a ha
    simp [parseName, takeWhile_all (noSlash_all ha), dropWhile_all (noSlash_all ha),
      List.filter_eq_self.mpr (noSlash_all ha)]

/-- Witness for C8: the general split law evaluated on a concrete name
with padding, a missing-closing-delimiter input, and a slash-free input. -/
theorem claim_C8_witness :
    '/' ∉ str "A " ∧ '/' ∉ str "B b" ∧
    parseName (str "A " ++ '/' :: (str "B b" ++ '/' :: str " C")) =
      ⟨trim (str "A " ++ (str "B b" ++ (str " C").filter neSlash)),
        trim (str "A "), trim (str "B b"), trim (str " C")⟩ :=
  ⟨by decide, by decide,
    claim_C8.2.1 (str "A ") (str "B b") (str " C") (by decide) (by decide)⟩

end ClaimC8

section ClaimC5

theorem lineStep_skip (st : PState) (l : Str)
    (h : parseLine (trim l) = none) : lineStep st l = st := by
  simp [lineStep, h]

/-- Claim C5: the parser is total — in this embedding every function is
total by construction, and the observable content of the claim is that
empty content yields empty collections and that any line whose trimmed
text does not tokenize (blank lines and malformed lines, including
malformed levels) leaves the parser state untouched, so the remaining
lines parse exactly as if the bad line were absent. -/
theorem claim_C5 :
    ((parse []).individuals = [] ∧ (parse []).families = [])
    ∧ (∀ (st : PState) (l : Str), parseLine (trim l) = none → lineStep st l = st)
    ∧ (∀ (st : PState) (bad : Str) (rest : List Str), parseLine (trim bad) = none →
        (bad :: rest).foldl lineStep st = rest.foldl lineStep st) := by
  refine ⟨by decide, lineStep_skip, ?_⟩
  intro st bad rest h
  rw [List.foldl_cons, lineStep_skip st bad h]

/-- Witness for C5: a line with a malformed (non-numeric) level is
skipped without disturbing the state. -/
theorem claim_C5_witness :
    parseLine (trim (str "x NAME a")) = none ∧
    lineStep initState (str "x NAME a") = initState :=
  ⟨by decide, claim_C5.2.1 initState (str "x NAME a") (by decide)⟩

end ClaimC5

section ClaimC6

theorem popGE_dropWhile (s : List StackEntry) (l : Nat) :
    popGE s l = s.dropWhile (fun e => decide (l ≤ e.level)) := by
  induction s with
  | nil => rfl
  | cons e t ih =>
    by_cases h : l ≤ e.level
    · simp [popGE, List.dropWhile_cons, h, ih]
    · simp [popGE, List.dropWhile_cons, h]

theorem popGE_popGE {s : List StackEntry} {l lv : Nat} (h : l ≤ lv) :
    popGE (popGE s lv) l = popGE s l := by
  induction s with
  | nil => rfl
  | cons e t ih =>
    by_cases he : lv ≤ e.level
    · have hl : l ≤ e.level := le_trans h he
      simp [popGE, he, hl, ih]
    · simp [popGE, he]

theorem runStack_append (t0 : Str) (hist : List StackEntry) (e : StackEntry) :
    runStack t0 (hist ++ [e]) = e :: popGE (runStack t0 hist) e.level := by
  simp [runStack, List.foldl_append]

theorem runStack_parent (t0 : Str) (hist : List StackEntry)
    (hpos : ∀ e ∈ hist, 0 < e.level) :
    ∀ l, 0 < l →
      (popGE (runStack t0 hist) l).head? = lastLower l (⟨0, t0⟩ :: hist) := by
  induction hist using List.reverseRecOn with
  | nil =>
    intro l hl
    simp [runStack, popGE, lastLower, Nat.not_le.mpr hl, hl]
  | append_singleton hist e ih =>
    intro l hl
    rw [runStack_append]
    by_cases hcase : e.level < l
    · have : ¬ l ≤ e.level := Nat.not_le.mpr hcase
      simp [popGE, this, lastLower, hcase]
    · have hle : l ≤ e.level := Nat.not_lt.mp hcase
      have ihl := ih (fun x hx => hpos x (by simp [hx])) l hl
      simp only [popGE, hle, if_pos, popGE_popGE hle]
      rw [ihl]
      simp [lastLower, hcase]

/-- Claim C6: processing a token at level > 0 inside an open record pops
exactly the stack entries whose level is at least the token's level
(`popGE` is a `dropWhile`), and the entry then consulted as parent
context is the most recent previously processed line of the record — the
opening level-0 line included — whose level is strictly smaller than the
token's, even when level numbers skip values. -/
theorem claim_C6 :
    (∀ (s : List StackEntry) (l : Nat),
      popGE s l = s.dropWhile (fun e => decide (l ≤ e.level)))
    ∧ (∀ (t0 : Str) (hist : List StackEntry), (∀ e ∈ hist, 0 < e.level) →
        ∀ l, 0 < l →
          (popGE (runStack t0 hist) l).head? = lastLower l (⟨0, t0⟩ :: hist)) :=
  ⟨popGE_dropWhile, runStack_parent⟩

/-- Witness for C6: a history with skipped levels (1, 3, 2); a new line
at level 3 gets the level-2 entry as parent, the most recent with a
strictly smaller level. -/
theorem claim_C6_witness :
    (popGE [⟨3, str "C"⟩, ⟨1, str "A"⟩, ⟨0, str "INDI"⟩] 2 =
      List.dropWhile (fun e => decide (2 ≤ e.level))
        [⟨3, str "C"⟩, ⟨1, str "A"⟩, ⟨0, str "INDI"⟩])
    ∧ ((popGE (runStack (str "INDI")
          [⟨1, str "A"⟩, ⟨3, str "C"⟩, ⟨2, str "B"⟩]) 3).head? =
        lastLower 3 [⟨0, str "INDI"⟩, ⟨1, str "A"⟩, ⟨3, str "C"⟩, ⟨2, str "B"⟩]) :=
  ⟨claim_C6.1 [⟨3, str "C"⟩, ⟨1, str "A"⟩, ⟨0, str "INDI"⟩] 2,
    claim_C6.2 (str "INDI") [⟨1, str "A"⟩, ⟨3, str "C"⟩, ⟨2, str "B"⟩]
      (by decide) 3 (by decide)⟩

end ClaimC6

section ClaimC3

/-- Claim C3 fails on the code: in `spouseDoc` all three individuals land
in the one generation-0 row, `I3`'s spouse is `I2` (and vice versa), yet
the sorted row is `I3, I1, I2` — the spouse pair is separated by `I1`.
The comparator returns "a before b" for BOTH argument orders of a spouse
pair, so it is not a consistent order and the sort never brings a pair
together unless it happens to compare them directly; here `I3` and `I1`,
and `I1` and `I2`, are compared by name only. -/
theorem claim_C3 :
    calculateGenerations 3 (nodesOf spouseDoc) (linksOf spouseDoc) =
      some [(str "@I1@", 0), (str "@I2@", 0), (str "@I3@", 0)]
    ∧ mapFind (spousePairs (linksOf spouseDoc)) (str "@I3@") = some (str "@I2@")
    ∧ mapFind (spousePairs (linksOf spouseDoc)) (str "@I2@") = some (str "@I3@")
    ∧ (sortedRows (nodesOf spouseDoc) (linksOf spouseDoc)
        [(str "@I1@", 0), (str "@I2@", 0), (str "@I3@", 0)]).map
          (fun r => r.2.map (·.id)) = [[str "@I3@", str "@I1@", str "@I2@"]]
    ∧ ¬ [str "@I3@", str "@I2@"] <:+: [str "@I3@", str "@I1@", str "@I2@"]
    ∧ ¬ [str "@I2@", str "@I3@"] <:+: [str "@I3@", str "@I1@", str "@I2@"] := by
  decide

end ClaimC3

section ClaimC7

theorem mapSet_ne_nil {κ α : Type} [DecidableEq κ] (m : List (κ × α)) (k : κ) (v : α) :
    mapSet m k v ≠ [] := by
  cases m with
  | nil => simp [mapSet]
  | cons p t =>
    simp only [mapSet]
    split <;> simp

theorem fallbackStep_ne_nil (g : List (Str × Int)) (n : Node) :
    (match mapFind g n.id with
      | none => mapSet g n.id (estimateGen n)
      | some _ => g) ≠ [] := by
  cases hfind : mapFind g n.id with
  | none => simpa using mapSet_ne_nil g n.id (estimateGen n)
  | some _ =>
    cases g with
    | nil => simp [mapFind] at hfind
    | cons _ _ => simp

theorem fallbackFold_ne_nil (t : List Node) :
    ∀ g : List (Str × Int), g ≠ [] →
      t.foldl (fun g n =>
        match mapFind g n.id with
        | none => mapSet g n.id (estimateGen n)
        | some _ => g) g ≠ [] := by
  induction t with
  | nil => intro g hg; simpa using hg
  | cons x xs ih =>
    intro g hg
    simp only [List.foldl_cons]
    exact ih _ (fallbackStep_ne_nil g x)

theorem fallbackGens_ne_nil (nodes : List Node) (g : List (Str × Int))
    (h : nodes ≠ []) : fallbackGens nodes g ≠ [] := by
  cases nodes with
  | nil => exact absurd rfl h
  | cons n t =>
    simp only [fallbackGens, List.foldl_cons]
    exact fallbackFold_ne_nil t _ (fallbackStep_ne_nil g n)

theorem foldl_min_map_sub (t : List (Str × Int)) (m : Int) :
    ∀ v : Int, ((t.map (fun p => (p.1, p.2 - m))).foldl (fun a p => min a p.2) (v - m)) =
      (t.foldl (fun a p => min a p.2) v) - m := by
  induction t with
  | nil => intro v; rfl
  | cons p t ih =>
    intro v
    simp only [List.map_cons, List.foldl_cons]
    have : min (v - m) (p.2 - m) = min v p.2 - m := by omega
    rw [this, ih]

theorem minVal_map_sub (g : List (Str × Int)) (m : Int) :
    minVal (g.map (fun p => (p.1, p.2 - m))) = (minVal g).map (fun v => v - m) := by
  cases g with
  | nil => rfl
  | cons p t => simp [minVal, foldl_min_map_sub]

theorem normalize_min (g : List (Str × Int)) (h : g ≠ []) :
    minVal (normalizeGens g) = some 0 := by
  cases g with
  | nil => exact absurd rfl h
  | cons p t =>
    simp only [normalizeGens]
    cases hm : minVal (p :: t) with
    | none => simp [minVal] at hm
    | some m =>
      by_cases hz : m = 0
      · simpa [hz] using hm
      · have hmap : minVal ((p :: t).map (fun p => (p.1, p.2 - m))) = some 0 := by
          rw [minVal_map_sub, hm]
          simp
        simpa [hz] using hmap

/-- Claim C7: whenever `calculateGenerations` completes on a document
with at least one individual, the minimum of the final generation map is
exactly 0; and for the spec's two-individual example, `I1` gets
generation 0 and its child `I2` generation 1. -/
theorem claim_C7 :
    (∀ (fuel : Nat) (nodes : List Node) (links : List Link) (gens : List (Str × Int)),
        nodes ≠ [] →
        calculateGenerations fuel nodes links = some gens →
        minVal gens = some 0)
    ∧ calculateGenerations 3 (nodesOf exampleDoc) (linksOf exampleDoc) =
        some [(str "@I1@", 0), (str "@I2@", 1)] := by
  refine ⟨?_, by decide⟩
  intro fuel nodes links gens hne hrun
  simp only [calculateGenerations, Option.map_eq_some'] at hrun
  obtain ⟨g0, _, rfl⟩ := hrun
  exact normalize_min _ (fallbackGens_ne_nil nodes g0 hne)

/-- Witness for C7: the general minimum-is-zero statement instantiated
on the example document. -/
theorem claim_C7_witness :
    minVal [((str "@I1@" : Str), (0 : Int)), (str "@I2@", 1)] = some 0 :=
  claim_C7.1 3 (nodesOf exampleDoc) (linksOf exampleDoc)
    [(str "@I1@", 0), (str "@I2@", 1)] (by decide) (by decide)

end ClaimC7

section ClaimC9

theorem mem_mapSet {κ α : Type} [DecidableEq κ] {m : List (κ × α)} {k : κ} {v : α}
    {p : κ × α} (h : p ∈ mapSet m k v) : p ∈ m ∨ p = (k, v) := by
  induction m with
  | nil => simpa [mapSet] using h
  | cons q t ih =>
    simp only [mapSet] at h
    by_cases hk : q.1 = k
    · rw [if_pos hk] at h
      rcases List.mem_cons.mp h with h1 | h1
      · exact Or.inr h1
      · exact Or.inl (List.mem_cons_of_mem _ h1)
    · rw [if_neg hk] at h
      rcases List.mem_cons.mp h with h1 | h1
      · exact Or.inl (h1 ▸ List.mem_cons_self _ _)
      · rcases ih h1 with h2 | h2
        · exact Or.inl (List.mem_cons_of_mem _ h2)
        · exact Or.inr h2

theorem iTagOf_eq_sex {tag : Str} (h : iTagOf tag = .tSex) : tag = str "SEX" := by
  unfold iTagOf at h
  by_cases h1 : tag = str "NAME"
  · rw [if_pos h1] at h; exact absurd h (by decide)
  rw [if_neg h1] at h
  by_cases h2 : tag = str "SEX"
  · exact h2
  rw [if_neg h2] at h
  by_cases h3 : tag = str "BIRT"
  · rw [if_pos h3] at h; exact absurd h (by decide)
  rw [if_neg h3] at h
  by_cases h4 : tag = str "DEAT"
  · rw [if_pos h4] at h; exact absurd h (by decide)
  rw [if_neg h4] at h
  by_cases h5 : tag = str "DATE"
  · rw [if_pos h5] at h; exact absurd h (by decide)
  rw [if_neg h5] at h
  by_cases h6 : tag = str "PLAC"
  · rw [if_pos h6] at h; exact absurd h (by decide)
  rw [if_neg h6] at h
  by_cases h7 : tag = str "TYPE"
  · rw [if_pos h7] at h; exact absurd h (by decide)
  rw [if_neg h7] at h
  by_cases h8 : tag = str "OCCU"
  · rw [if_pos h8] at h; exact absurd h (by decide)
  rw [if_neg h8] at h
  by_cases h9 : tag = str "NATI"
  · rw [if_pos h9] at h; exact absurd h (by decide)
  rw [if_neg h9] at h
  by_cases h10 : tag = str "TITL"
  · rw [if_pos h10] at h; exact absurd h (by decide)
  rw [if_neg h10] at h
  by_cases h11 : tag = str "NOTE"
  · rw [if_pos h11] at h; exact absurd h (by decide)
  rw [if_neg h11] at h
  by_cases h12 : tag = str "FAMC"
  · rw [if_pos h12] at h; exact absurd h (by decide)
  rw [if_neg h12] at h
  by_cases h13 : tag = str "FAMS"
  · rw [if_pos h13] at h; exact absurd h (by decide)
  rw [if_neg h13] at h
  exact absurd h (by decide)

set_option maxHeartbeats 1000000 in
theorem processIndividualTag_sex (r : Individual) (tag value : Str) (pt : Option Str) :
    (processIndividualTag r tag value pt).sex = r.sex ∨
    (tag = str "SEX" ∧ (processIndividualTag r tag value pt).sex = value) := by
  unfold processIndividualTag
  cases htag : iTagOf tag
  case tSex => right; exact ⟨iTagOf_eq_sex htag, rfl⟩
  case tDate =>
    left
    split_ifs <;>
      first
        | rfl
        | (cases r.birth <;> rfl)
        | (cases r.death <;> rfl)
  case tPlac =>
    left
    split_ifs <;>
      first
        | rfl
        | (cases r.birth <;> rfl)
        | (cases r.death <;> rfl)
  case tType =>
    left
    split_ifs <;>
      first
        | rfl
        | (cases r.birth <;> rfl)
        | (cases r.death <;> rfl)
  all_goals left; rfl

/-- Invariant carried through the parse: every stored individual and an
open individual record satisfy `P` on their sex field. -/
def stateSexOk (P : Str → Prop) (st : PState) : Prop :=
  (∀ p ∈ st.individuals, P p.2.sex) ∧ (∀ i, st.cur = CurRec.indi i → P i.sex)

theorem stateSexOk_mono {P Q : Str → Prop} (h : ∀ s, P s → Q s) {st : PState}
    (hst : stateSexOk P st) : stateSexOk Q st :=
  ⟨fun p hp => h _ (hst.1 p hp), fun i hi => h _ (hst.2 i hi)⟩

theorem stateSexOk_save {P : Str → Prop} {st : PState} (hst : stateSexOk P st) :
    ∀ p ∈ (saveCurrentRecord st).individuals, P p.2.sex := by
  intro p hp
  cases hc : st.cur with
  | indi i =>
    simp only [saveCurrentRecord, hc] at hp
    rcases mem_mapSet hp with h1 | h1
    · exact hst.1 p h1
    · rw [h1]
      exact hst.2 i hc
  | fam f => simp only [saveCurrentRecord, hc] at hp; exact hst.1 p hp
  | hd => simp only [saveCurrentRecord, hc] at hp; exact hst.1 p hp
  | noRec => simp only [saveCurrentRecord, hc] at hp; exact hst.1 p hp

theorem lineStep_sexOk {P : Str → Prop} (st : PState) (l : Str)
    (hst : stateSexOk P st) (hnil : P []) :
    stateSexOk (fun s => P s ∨ lineSex l s) (lineStep st l) := by
  by_cases he : (trim l).isEmpty
  · rw [show lineStep st l = st by simp [lineStep, he]]
    exact stateSexOk_mono (fun s h => Or.inl h) hst
  · cases hp : parseLine (trim l) with
    | none =>
      rw [show lineStep st l = st by simp [lineStep, he, hp]]
      exact stateSexOk_mono (fun s h => Or.inl h) hst
    | some t =>
      by_cases hl : t.level = 0
      · have hstep : lineStep st l =
            { saveCurrentRecord st with
              cur :=
                if t.xref.isSome ∧ t.tag = str "INDI" then
                  .indi (newIndividual (t.xref.getD []))
                else if t.xref.isSome ∧ t.tag = str "FAM" then
                  .fam (newFamily (t.xref.getD []))
                else if t.tag = str "HEAD" then .hd
                else .noRec
              stack := [⟨0, t.tag⟩] } := by
          simp [lineStep, he, hp, hl]
        rw [hstep]
        constructor
        · intro p hpmem
          exact Or.inl (stateSexOk_save hst p hpmem)
        · intro i hi
          simp only at hi
          split_ifs at hi <;> cases hi
          exact Or.inl hnil
      · cases hc : st.cur with
        | noRec =>
          rw [show lineStep st l = st by simp [lineStep, he, hp, hl, hc]]
          exact stateSexOk_mono (fun s h => Or.inl h) hst
        | indi i =>
          have hstep : lineStep st l =
              { st with
                cur := processTag (.indi i) t.tag t.value
                  ((popGE st.stack t.level).head?.map (·.tag))
                stack := ⟨t.level, t.tag⟩ :: popGE st.stack t.level } := by
            simp [lineStep, he, hp, hl, hc]
          rw [hstep]
          refine ⟨fun p hpmem => Or.inl (hst.1 p hpmem), ?_⟩
          intro j hj
          simp only [processTag] at hj
          cases hj
          rcases processIndividualTag_sex i t.tag t.value
              ((popGE st.stack t.level).head?.map (·.tag)) with h1 | h1
          · exact Or.inl (h1 ▸ hst.2 i hc)
          · exact Or.inr ⟨t, hp, h1.1, h1.2.symm⟩
        | fam f =>
          have hstep : lineStep st l =
              { st with
                cur := processTag (.fam f) t.tag t.value
                  ((popGE st.stack t.level).head?.map (·.tag))
                stack := ⟨t.level, t.tag⟩ :: popGE st.stack t.level } := by
            simp [lineStep, he, hp, hl, hc]
          rw [hstep]
          refine ⟨fun p hpmem => Or.inl (hst.1 p hpmem), ?_⟩
          intro j hj
          simp [processTag] at hj
        | hd =>
          have hstep : lineStep st l =
              { st with
                cur := processTag .hd t.tag t.value
                  ((popGE st.stack t.level).head?.map (·.tag))
                stack := ⟨t.level, t.tag⟩ :: popGE st.stack t.level } := by
            simp [lineStep, he, hp, hl, hc]
          rw [hstep]
          refine ⟨fun p hpmem => Or.inl (hst.1 p hpmem), ?_⟩
          intro j hj
          simp [processTag] at hj

theorem foldl_sexOk (lines : List Str) :
    ∀ (st : PState) (P : Str → Prop), stateSexOk P st → P [] →
      stateSexOk (fun s => P s ∨ ∃ l ∈ lines, lineSex l s) (lines.foldl lineStep st) := by
  induction lines with
  | nil =>
    intro st P hst _
    exact stateSexOk_mono (fun s h => Or.inl h) hst
  | cons l ls ih =>
    intro st P hst hnil
    have h1 := ih (lineStep st l) (fun s => P s ∨ lineSex l s)
      (lineStep_sexOk st l hst hnil) (Or.inl hnil)
    rw [List.foldl_cons]
    refine stateSexOk_mono ?_ h1
    rintro s (⟨hs | hs⟩ | ⟨x, hx, hs⟩)
    · exact Or.inl hs
    · exact Or.inr ⟨l, List.mem_cons_self _ _, hs⟩
    · exact Or.inr ⟨x, List.mem_cons_of_mem _ hx, hs⟩

/-- Claim C9, corrected: the parser stores the value of a `SEX` line
verbatim, so the sex of every parsed individual is the empty string or
the literal value of some `SEX` line — it is `M`, `F` or empty only when
the document's `SEX` values are. -/
theorem claim_C9 :
    ∀ (content : Str), ∀ p ∈ (parse content).individuals,
      SexFromDoc (splitLines content) p.2.sex := by
  intro content p hp
  have hbase : stateSexOk (fun s => s = []) initState := by
    constructor
    · intro q hq
      simp [initState] at hq
    · intro i hi
      simp [initState] at hi
  have hfold := foldl_sexOk (splitLines content) initState _ hbase rfl
  exact stateSexOk_save hfold p hp

/-- Counterexample for C9 as stated: parsing `sexDoc` stores an
individual whose sex is `"X"`, which is neither `M`, `F` nor empty. -/
theorem claim_C9_counterexample :
    ¬ (∀ (content : Str), ∀ p ∈ (parse content).individuals,
        p.2.sex = str "M" ∨ p.2.sex = str "F" ∨ p.2.sex = []) := by
  intro h
  have := h sexDoc
  revert this
  decide

/-- Witness for C9: the amended statement instantiated on `sexDoc`. -/
theorem claim_C9_witness :
    List.Forall (fun p => SexFromDoc (splitLines sexDoc) (Prod.snd p).sex)
      (parse sexDoc).individuals :=
  List.forall_iff_forall_mem.mpr (claim_C9 sexDoc)

end ClaimC9

section ClaimC10

theorem mem_keys_mapSet {κ α : Type} [DecidableEq κ] {m : List (κ × α)} {k a : κ}
    {v : α} (h : a ∈ (mapSet m k v).map (·.1)) : a ∈ m.map (·.1) ∨ a = k := by
  rcases List.mem_map.mp h with ⟨p, hp, rfl⟩
  rcases mem_mapSet hp with h1 | h1
  · exact Or.inl (List.mem_map_of_mem _ h1)
  · exact Or.inr (by rw [h1])

theorem nodup_keys_mapSet {κ α : Type} [DecidableEq κ] {m : List (κ × α)} (k : κ)
    (v : α) (h : (m.map (·.1)).Nodup) : ((mapSet m k v).map (·.1)).Nodup := by
  induction m with
  | nil => simp [mapSet]
  | cons q t ih =>
    simp only [List.map_cons, List.nodup_cons] at h
    by_cases hk : q.1 = k
    · rw [show mapSet (q :: t) k v = (k, v) :: t by simp [mapSet, hk]]
      simp only [List.map_cons, List.nodup_cons]
      exact ⟨hk ▸ h.1, h.2⟩
    · simp only [mapSet, if_neg hk, List.map_cons, List.nodup_cons]
      refine ⟨fun hmem => ?_, ih h.2⟩
      rcases mem_keys_mapSet hmem with h1 | h1
      · exact h.1 h1
      · exact hk h1

/-- Both collections have pairwise-distinct keys. -/
def NodupMaps (st : PState) : Prop :=
  (st.individuals.map (·.1)).Nodup ∧ (st.families.map (·.1)).Nodup

theorem save_nodup {st : PState} (h : NodupMaps st) :
    NodupMaps (saveCurrentRecord st) := by
  cases hc : st.cur with
  | indi i =>
    exact ⟨by simpa [saveCurrentRecord, hc] using nodup_keys_mapSet i.id i h.1,
      by simpa [saveCurrentRecord, hc] using h.2⟩
  | fam f =>
    exact ⟨by simpa [saveCurrentRecord, hc] using h.1,
      by simpa [saveCurrentRecord, hc] using nodup_keys_mapSet f.id f h.2⟩
  | hd => exact ⟨by simpa [saveCurrentRecord, hc] using h.1,
      by simpa [saveCurrentRecord, hc] using h.2⟩
  | noRec => exact ⟨by simpa [saveCurrentRecord, hc] using h.1,
      by simpa [saveCurrentRecord, hc] using h.2⟩

theorem lineStep_maps (st : PState) (l : Str) :
    ((lineStep st l).individuals = st.individuals ∧
      (lineStep st l).families = st.families)
    ∨ ((lineStep st l).individuals = (saveCurrentRecord st).individuals ∧
      (lineStep st l).families = (saveCurrentRecord st).families) := by
  by_cases he : (trim l).isEmpty
  · left; constructor <;> simp [lineStep, he]
  · cases hp : parseLine (trim l) with
    | none => left; constructor <;> simp [lineStep, he, hp]
    | some t =>
      by_cases hl : t.level = 0
      · right; constructor <;> simp [lineStep, he, hp, hl]
      · cases hc : st.cur with
        | noRec => left; constructor <;> simp [lineStep, he, hp, hl, hc]
        | indi i => left; constructor <;> simp [lineStep, he, hp, hl, hc]
        | fam f => left; constructor <;> simp [lineStep, he, hp, hl, hc]
        | hd => left; constructor <;> simp [lineStep, he, hp, hl, hc]

theorem lineStep_nodup {st : PState} (l : Str) (h : NodupMaps st) :
    NodupMaps (lineStep st l) := by
  rcases lineStep_maps st l with ⟨h1, h2⟩ | ⟨h1, h2⟩
  · exact ⟨h1 ▸ h.1, h2 ▸ h.2⟩
  · have := save_nodup h
    exact ⟨h1 ▸ this.1, h2 ▸ this.2⟩

theorem foldl_nodup (lines : List Str) :
    ∀ st : PState, NodupMaps st → NodupMaps (lines.foldl lineStep st) := by
  induction lines with
  | nil => intro st h; exact h
  | cons l ls ih =>
    intro st h
    exact ih _ (lineStep_nodup l h)

/-- Claim C10: the individual and family collections always have at most
one record per identifier; a later level-0 record with the same xref
replaces the earlier one wholesale (in `dupDoc` only the record named
"Second" survives); and `buildGraphData` emits exactly one node per
individual identifier, in collection order. -/
theorem claim_C10 :
    (∀ content : Str, ((parse content).individuals.map (·.1)).Nodup ∧
      ((parse content).families.map (·.1)).Nodup)
    ∧ (∀ (inds : List (Str × Individual)) (fams : List (Str × Family)),
        (buildGraphData inds fams).1.map (·.id) = inds.map (·.1))
    ∧ (parse dupDoc).individuals.map (fun p => (p.1, p.2.names.map (·.full))) =
        [(str "@I1@", [str "Second"])] := by
  refine ⟨?_, ?_, by decide⟩
  · intro content
    have hinit : NodupMaps initState := ⟨by simp [initState], by simp [initState]⟩
    exact save_nodup (foldl_nodup (splitLines content) initState hinit)
  · intro inds fams
    simp [buildGraphData, nodeOf, Function.comp]

/-- Witness for C10: uniqueness of identifiers and one-node-per-id on
the duplicate-xref document. -/
theorem claim_C10_witness :
    (((parse dupDoc).individuals.map (·.1)).Nodup ∧
      ((parse dupDoc).families.map (·.1)).Nodup)
    ∧ (buildGraphData (parse dupDoc).individuals (parse dupDoc).families).1.map (·.id) =
        (parse dupDoc).individuals.map (·.1) :=
  ⟨claim_C10.1 dupDoc,
    claim_C10.2.1 (parse dupDoc).individuals (parse dupDoc).families⟩

end ClaimC10

section ClaimC4

theorem rId_ne_aId : rId ≠ aId := by decide

theorem rId_ne_bId : rId ≠ bId := by decide

theorem aId_ne_bId : aId ≠ bId := by decide

theorem aId_ne_rId : aId ≠ rId := by decide

theorem bId_ne_rId : bId ≠ rId := by decide

theorem bId_ne_aId : bId ≠ aId := by decide

theorem cyc_step_A (a b : Int) (h : b < a) :
    bfsStep cycAdj ⟨[aId], cycGens a b⟩ = ⟨[bId], cycGens a (a + 1)⟩ := by
  have hcond : a + 1 > b := by omega
  simp [bfsStep, cycAdj, cycGens, mapFind, processChild, mapSet,
    rId_ne_aId, rId_ne_bId, aId_ne_bId, aId_ne_rId, bId_ne_rId, bId_ne_aId, hcond]

theorem cyc_step_B (a b : Int) (h : a < b) :
    bfsStep cycAdj ⟨[bId], cycGens a b⟩ = ⟨[aId], cycGens (b + 1) b⟩ := by
  have hcond : b + 1 > a := by omega
  simp [bfsStep, cycAdj, cycGens, mapFind, processChild, mapSet,
    rId_ne_aId, rId_ne_bId, aId_ne_bId, aId_ne_rId, bId_ne_rId, bId_ne_aId, hcond]

/-- The states the BFS worklist visits forever on `cyclicDoc`. -/
def CycInv (s : BfsState) : Prop :=
  s = ⟨[rId], [(rId, 0)]⟩
  ∨ s = ⟨[aId], [(rId, 0), (aId, 1)]⟩
  ∨ (∃ a b : Int, b < a ∧ s = ⟨[aId], cycGens a b⟩)
  ∨ (∃ a b : Int, a < b ∧ s = ⟨[bId], cycGens a b⟩)

theorem cycInv_step {s : BfsState} (h : CycInv s) : CycInv (bfsStep cycAdj s) := by
  rcases h with rfl | rfl | ⟨a, b, hab, rfl⟩ | ⟨a, b, hab, rfl⟩
  · right; left
    decide
  · right; right; right
    refine ⟨1, 2, by omega, ?_⟩
    decide
  · right; right; right
    exact ⟨a, a + 1, by omega, cyc_step_A a b hab⟩
  · right; right; left
    exact ⟨b + 1, b, by omega, cyc_step_B a b hab⟩

theorem cycInv_queue_ne {s : BfsState} (h : CycInv s) : s.queue ≠ [] := by
  rcases h with rfl | rfl | ⟨a, b, _, rfl⟩ | ⟨a, b, _, rfl⟩ <;> simp

theorem bfsLoop_cyc_none : ∀ (f : Nat) (s : BfsState), CycInv s →
    bfsLoop cycAdj f s = none := by
  intro f
  induction f with
  | zero =>
    intro s h
    simp [bfsLoop, List.isEmpty_iff, cycInv_queue_ne h]
  | succ n ih =>
    intro s h
    simp only [bfsLoop, List.isEmpty_iff, cycInv_queue_ne h, if_neg]
    exact ih _ (cycInv_step h)

/-- Claim C4 fails on the code: on `cyclicDoc` — a family making `A` a
parent of `B`, another making `B` a parent of `A`, and a root `R` above
them — the generation BFS re-enqueues `A` and `B` forever with
ever-growing generations, so no amount of fuel completes the loop; the
pipeline does not terminate on this document (under the exact integer
semantics of this embedding; with IEEE doubles the loop would only stop
after the generations saturate at 2^53). -/
theorem claim_C4 :
    ∀ fuel : Nat,
      calculateGenerations fuel (nodesOf cyclicDoc) (linksOf cyclicDoc) = none := by
  intro fuel
  have hadj : parentToChildren (linksOf cyclicDoc) = cycAdj := by decide
  have hinit : initBfs (nodesOf cyclicDoc) (linksOf cyclicDoc) =
      ⟨[rId], [(rId, 0)]⟩ := by decide
  simp only [calculateGenerations, hadj, hinit]
  rw [bfsLoop_cyc_none fuel _ (Or.inl rfl)]
  rfl

end ClaimC4

section ClaimC2

theorem insertCmp_perm {α : Type} (lt : α → α → Bool) (x : α) (l : List α) :
    (insertCmp lt x l).Perm (x :: l) := by
  induction l with
  | nil => exact List.Perm.refl _
  | cons y ys ih =>
    by_cases h : lt x y
    · simp [insertCmp, h]
    · simp only [insertCmp, if_neg h]
      exact (ih.cons y).trans (List.Perm.swap x y ys)

theorem sortCmp_perm_aux {α : Type} (lt : α → α → Bool) (l : List α) :
    ∀ acc : List α, (l.foldl (fun acc x => insertCmp lt x acc) acc).Perm (acc ++ l) := by
  induction l with
  | nil => intro acc; simp
  | cons x xs ih =>
    intro acc
    simp only [List.foldl_cons]
    refine (ih (insertCmp lt x acc)).trans ?_
    refine ((insertCmp_perm lt x acc).append_right xs).trans ?_
    exact List.perm_middle.symm

theorem sortCmp_perm {α : Type} (lt : α → α → Bool) (l : List α) :
    (sortCmp lt l).Perm l := by
  simpa [sortCmp] using sortCmp_perm_aux lt l []

theorem GapChain_congr {p1 p2 : Str → ℚ} :
    ∀ {ids : List Str}, (∀ q ∈ ids, p1 q = p2 q) → GapChain p1 ids → GapChain p2 ids := by
  intro ids
  induction ids with
  | nil => intro _ _; simp [GapChain]
  | cons a t ih =>
    intro hagree hchain
    cases t with
    | nil => exact List.chain'_singleton a
    | cons b t' =>
      rw [GapChain, List.chain'_cons] at hchain ⊢
      constructor
      · rw [← hagree a (by simp), ← hagree b (by simp)]
        exact hchain.1
      · exact ih (fun q hq => hagree q (List.mem_cons_of_mem _ hq)) hchain.2

theorem adjustGo_untouched (t : List Node) :
    ∀ (pos : Str → ℚ) (prev q : Str), q ∉ t.map (·.id) →
      adjustGo pos prev t q = pos q := by
  induction t with
  | nil => intro pos prev q _; rfl
  | cons c t ih =>
    intro pos prev q hq
    simp only [List.map_cons, List.mem_cons, not_or] at hq
    simp only [adjustGo]
    rw [ih _ _ _ hq.2]
    split
    · simp [setPos, hq.1]
    · rfl

theorem adjustGo_gap (t : List Node) :
    ∀ (pos : Str → ℚ) (prev : Str), prev ∉ t.map (·.id) → (t.map (·.id)).Nodup →
      GapChain (adjustGo pos prev t) (prev :: t.map (·.id)) := by
  induction t with
  | nil => intro pos prev _ _; exact List.chain'_singleton prev
  | cons c t ih =>
    intro pos prev hprev hnodup
    simp only [List.map_cons, List.mem_cons, not_or] at hprev
    simp only [List.map_cons, List.nodup_cons] at hnodup
    by_cases hcond : pos c.id - pos prev < horizontalSpacing
    · have hres : adjustGo pos prev (c :: t) =
          adjustGo (setPos pos c.id (pos prev + horizontalSpacing)) c.id t := by
        simp [adjustGo, hcond]
      rw [List.map_cons, GapChain, List.chain'_cons, hres]
      constructor
      · rw [adjustGo_untouched t _ c.id c.id hnodup.1,
          adjustGo_untouched t _ c.id prev hprev.2]
        have h1 : setPos pos c.id (pos prev + horizontalSpacing) c.id =
            pos prev + horizontalSpacing := by simp [setPos]
        have h2 : setPos pos c.id (pos prev + horizontalSpacing) prev = pos prev := by
          simp [setPos, hprev.1]
        rw [h1, h2]
        linarith
      · exact ih _ c.id hnodup.1 hnodup.2
    · have hres : adjustGo pos prev (c :: t) = adjustGo pos c.id t := by
        simp [adjustGo, hcond]
      rw [List.map_cons, GapChain, List.chain'_cons, hres]
      constructor
      · rw [adjustGo_untouched t _ c.id c.id hnodup.1,
          adjustGo_untouched t _ c.id prev hprev.2]
        linarith [not_lt.mp hcond]
      · exact ih _ c.id hnodup.1 hnodup.2

theorem sepRow_spec (pos : Str → ℚ) (row : List Node)
    (h : (row.map (·.id)).Nodup) :
    (sepRow pos row).1.Perm row ∧
    (∀ q, q ∉ row.map (·.id) → (sepRow pos row).2 q = pos q) ∧
    GapChain (sepRow pos row).2 ((sepRow pos row).1.map (·.id)) := by
  have hperm : (sortCmp (fun a b => decide (pos a.id < pos b.id)) row).Perm row :=
    sortCmp_perm _ row
  have hids : ((sortCmp (fun a b => decide (pos a.id < pos b.id)) row).map (·.id)).Perm
      (row.map (·.id)) := hperm.map _
  have hnodup : ((sortCmp (fun a b => decide (pos a.id < pos b.id)) row).map (·.id)).Nodup :=
    hids.nodup_iff.mpr h
  unfold sepRow
  cases hs : sortCmp (fun a b => decide (pos a.id < pos b.id)) row with
  | nil =>
    rw [hs] at hperm
    exact ⟨hperm, fun q _ => rfl, by simp [GapChain]⟩
  | cons hd tl =>
    rw [hs] at hperm hids hnodup
    simp only [List.map_cons, List.nodup_cons] at hnodup
    refine ⟨hperm, ?_, ?_⟩
    · intro q hq
      have : q ∉ tl.map (·.id) := by
        intro hmem
        exact hq (hids.mem_iff.mp (by simp [hmem]))
      exact adjustGo_untouched tl pos hd.id q this
    · simpa using adjustGo_gap tl pos hd.id hnodup.1 hnodup.2

theorem nodup_flatten_cons {a : List Str} {L : List (List Str)}
    (h : ((a :: L).flatten).Nodup) :
    a.Nodup ∧ L.flatten.Nodup ∧ ∀ q ∈ a, q ∉ L.flatten := by
  rw [List.flatten_cons] at h
  exact ⟨h.of_append_left, h.of_append_right,
    fun q hq hmem => (List.disjoint_of_nodup_append h) hq hmem⟩

theorem sepRows_spec : ∀ (rows : List (List Node)) (pos : Str → ℚ),
    (joinIds rows).Nodup →
    (List.Forall₂ (fun r' r => r'.Perm r) (sepRows pos rows).1 rows ∧
      (∀ q, q ∉ joinIds rows → (sepRows pos rows).2 q = pos q) ∧
      (∀ r' ∈ (sepRows pos rows).1, GapChain (sepRows pos rows).2 (r'.map (·.id)))) := by
  intro rows
  induction rows with
  | nil =>
    intro pos _
    exact ⟨List.Forall₂.nil, fun q _ => rfl, fun r' hr' => absurd hr' (by simp [sepRows])⟩
  | cons row rest ih =>
    intro pos hnodup
    obtain ⟨hrow, hrest, hdisj⟩ := nodup_flatten_cons (a := row.map (·.id))
      (L := rest.map (fun r => r.map (·.id))) (by simpa [joinIds] using hnodup)
    obtain ⟨hp1, hu1, hc1⟩ := sepRow_spec pos row hrow
    obtain ⟨hp2, hu2, hc2⟩ := ih (sepRow pos row).2 hrest
    have hres : sepRows pos (row :: rest) =
        ((sepRow pos row).1 :: (sepRows (sepRow pos row).2 rest).1,
          (sepRows (sepRow pos row).2 rest).2) := rfl
    rw [hres]
    refine ⟨List.Forall₂.cons hp1 hp2, ?_, ?_⟩
    · intro q hq
      simp only [joinIds, List.map_cons, List.flatten_cons, List.mem_append] at hq
      push_neg at hq
      rw [hu2 q hq.2, hu1 q hq.1]
    · intro r' hr'
      rcases List.mem_cons.mp hr' with rfl | hmem
      · refine GapChain_congr ?_ hc1
        intro q hq
        have hq_row : q ∈ row.map (·.id) := (hp1.map (·.id)).mem_iff.mp hq
        exact (hu2 q (hdisj q hq_row)).symm
      · exact hc2 r' hmem

theorem joinIds_perm {rows' rows : List (List Node)}
    (h : List.Forall₂ (fun r' r => r'.Perm r) rows' rows) :
    (joinIds rows').Perm (joinIds rows) := by
  induction h with
  | nil => exact List.Perm.refl _
  | @cons a b l1 l2 h1 _ ih =>
    simpa [joinIds] using (h1.map (·.id)).append ih

theorem sepPass_rows_perm (st : LState) (h : (joinIds st.rows).Nodup) :
    List.Forall₂ (fun r' r => r'.Perm r) (sepPass st).rows st.rows :=
  (sepRows_spec st.rows st.pos h).1

theorem pullPass_rows (nodes : List Node) (links : List Link) (st : LState) :
    (pullPass nodes links st).rows = st.rows := rfl

theorem onePass_nodup (nodes : List Node) (links : List Link) (st : LState)
    (h : (joinIds st.rows).Nodup) :
    (joinIds (onePass nodes links st).rows).Nodup := by
  have h1 : (joinIds (pullPass nodes links st).rows).Nodup := h
  exact ((joinIds_perm (sepPass_rows_perm _ h1)).nodup_iff).mpr h1

theorem centerPass_rows (nodes : List Node) (st : LState) :
    (centerPass nodes st).rows = st.rows := by
  cases nodes <;> rfl

theorem centerPass_diff (nodes : List Node) (st : LState) (a b : Str) :
    (centerPass nodes st).pos b - (centerPass nodes st).pos a = st.pos b - st.pos a := by
  cases nodes with
  | nil => rfl
  | cons n t =>
    simp only [centerPass]
    ring

/-- Group-building: `mapSet` with a fresh key appends. -/
theorem mapSet_of_not_mem {κ α : Type} [DecidableEq κ] {m : List (κ × α)} {k : κ}
    (v : α) (h : mapFind m k = none) : mapSet m k v = m ++ [(k, v)] := by
  induction m with
  | nil => rfl
  | cons q t ih =>
    simp only [mapFind] at h
    by_cases hk : q.1 = k
    · rw [if_pos hk] at h; cases h
    · rw [if_neg hk] at h
      simp [mapSet, hk, ih h]

theorem flatten_mapSet_append {κ : Type} [DecidableEq κ] :
    ∀ (m : List (κ × List Node)) (k : κ) (l : List Node) (v : Node),
      mapFind m k = some l →
      (((mapSet m k (l ++ [v])).map (·.2)).flatten).Perm
        (((m.map (·.2)).flatten) ++ [v]) := by
  intro m
  induction m with
  | nil => intro k l v h; cases h
  | cons q t ih =>
    intro k l v h
    simp only [mapFind] at h
    by_cases hk : q.1 = k
    · rw [if_pos hk] at h
      cases h
      rw [show mapSet (q :: t) k (q.2 ++ [v]) = (k, q.2 ++ [v]) :: t by simp [mapSet, hk]]
      simp only [List.map_cons, List.flatten_cons, List.append_assoc,
        List.singleton_append]
      exact List.Perm.append_left q.2 (List.perm_append_singleton v _).symm
    · rw [if_neg hk] at h
      rw [show mapSet (q :: t) k (l ++ [v]) = q :: mapSet t k (l ++ [v]) by
        simp [mapSet, hk]]
      simp only [List.map_cons, List.flatten_cons]
      refine ((ih k l v h).append_left q.2).trans ?_
      simp [List.append_assoc]

theorem groups_flatten_perm (gens : List (Str × Int)) :
    ∀ (ns : List Node) (m : List (Int × List Node)),
      ((((ns.foldl (fun m n =>
        match mapFind m (genOfNode gens n) with
        | none => mapSet m (genOfNode gens n) [n]
        | some l => mapSet m (genOfNode gens n) (l ++ [n])) m)).map (·.2)).flatten).Perm
        (((m.map (·.2)).flatten) ++ ns) := by
  intro ns
  induction ns with
  | nil => intro m; simp
  | cons n t ih =>
    intro m
    simp only [List.foldl_cons]
    cases hfind : mapFind m (genOfNode gens n) with
    | none =>
      rw [mapSet_of_not_mem [n] hfind]
      refine (ih _).trans ?_
      simp only [List.map_append, List.flatten_append, List.map_cons, List.flatten_cons,
        List.map_nil, List.flatten_nil, List.append_nil, List.append_assoc,
        List.singleton_append]
      exact List.Perm.refl _
    | some l =>
      refine (ih _).trans ?_
      refine ((flatten_mapSet_append m _ l n hfind).append_right t).trans ?_
      simp only [List.append_assoc, List.singleton_append]
      exact List.Perm.refl _

theorem groups_keys_nodup (gens : List (Str × Int)) (nodes : List Node) :
    ((generationGroups gens nodes).map (·.1)).Nodup := by
  suffices h : ∀ (ns : List Node) (m : List (Int × List Node)),
      (m.map (·.1)).Nodup →
      (((ns.foldl (fun m n =>
        match mapFind m (genOfNode gens n) with
        | none => mapSet m (genOfNode gens n) [n]
        | some l => mapSet m (genOfNode gens n) (l ++ [n])) m)).map (·.1)).Nodup by
    exact h nodes [] (by simp)
  intro ns
  induction ns with
  | nil => intro m hm; exact hm
  | cons n t ih =>
    intro m hm
    simp only [List.foldl_cons]
    cases hfind : mapFind m (genOfNode gens n) with
    | none => exact ih _ (nodup_keys_mapSet _ _ hm)
    | some l => exact ih _ (nodup_keys_mapSet _ _ hm)

theorem mapFind_keys_values {κ α : Type} [DecidableEq κ] (d : α) :
    ∀ (m : List (κ × α)), (m.map (·.1)).Nodup →
      (m.map (·.1)).map (fun k => (mapFind m k).getD d) = m.map (·.2) := by
  intro m
  induction m with
  | nil => intro _; rfl
  | cons q t ih =>
    intro hm
    simp only [List.map_cons, List.nodup_cons] at hm
    have hhead : (mapFind (q :: t) q.1).getD d = q.2 := by simp [mapFind]
    have htail : (t.map (·.1)).map (fun k => (mapFind (q :: t) k).getD d) =
        (t.map (·.1)).map (fun k => (mapFind t k).getD d) := by
      apply List.map_congr_left
      intro k hk
      have hne : q.1 ≠ k := fun he => hm.1 (he ▸ hk)
      simp [mapFind, hne]
    calc ((q :: t).map (·.1)).map (fun k => (mapFind (q :: t) k).getD d)
        = (mapFind (q :: t) q.1).getD d ::
            (t.map (·.1)).map (fun k => (mapFind (q :: t) k).getD d) := by simp
      _ = q.2 :: (t.map (·.1)).map (fun k => (mapFind t k).getD d) := by rw [hhead, htail]
      _ = q.2 :: t.map (·.2) := by rw [ih hm.2]
      _ = (q :: t).map (·.2) := by simp

theorem sortedRows_flatten_perm (nodes : List Node) (links : List Link)
    (gens : List (Str × Int)) :
    (joinIds ((sortedRows nodes links gens).map (·.2))).Perm (nodes.map (·.id)) := by
  have hgroups : (((generationGroups gens nodes).map (·.2)).flatten).Perm nodes := by
    simpa [generationGroups] using groups_flatten_perm gens nodes []
  have hkeys := groups_keys_nodup gens nodes
  have hrows_eq : (sortedRows nodes links gens).map (·.2) =
      (sortCmp (fun a b => decide (a < b)) ((generationGroups gens nodes).map (·.1))).map
        (fun g => sortCmp (rowLt (spousePairs links))
          ((mapFind (generationGroups gens nodes) g).getD [])) := by
    unfold sortedRows
    simp only [List.map_map]
    rfl
  rw [hrows_eq]
  set groups := generationGroups gens nodes with hg
  set sp := spousePairs links
  set f0 : Int → List Node := fun g => (mapFind groups g).getD []
  set f : Int → List Node := fun g => sortCmp (rowLt sp) (f0 g)
  have step1 : List.Forall₂ (fun r' r => r'.Perm r)
      ((sortCmp (fun a b => decide (a < b)) (groups.map (·.1))).map f)
      ((sortCmp (fun a b => decide (a < b)) (groups.map (·.1))).map f0) := by
    rw [List.forall₂_map_right_iff, List.forall₂_map_left_iff]
    exact List.forall₂_same.mpr (fun g _ => sortCmp_perm _ _)
  refine (joinIds_perm step1).trans ?_
  have step2 : (joinIds ((sortCmp (fun a b => decide (a < b)) (groups.map (·.1))).map f0)).Perm
      (joinIds ((groups.map (·.1)).map f0)) := by
    unfold joinIds
    exact (((sortCmp_perm _ (groups.map (·.1))).map f0).map _).flatten
  refine step2.trans ?_
  have step3 : (groups.map (·.1)).map f0 = groups.map (·.2) :=
    mapFind_keys_values [] groups hkeys
  rw [step3]
  unfold joinIds
  rw [← List.map_flatten]
  exact hgroups.map _

/-- Claim C2: after the full layout (initial placement, three
pull-then-separate passes, centering shift), any two distinct nodes of
the same generation row are at least one `horizontalSpacing` apart in x,
provided the node ids are pairwise distinct (which `buildGraphData`
guarantees). -/
theorem claim_C2 (nodes : List Node) (links : List Link) (gens : List (Str × Int))
    (h : (nodes.map (·.id)).Nodup) :
    ∀ row ∈ (calculatePositions nodes links gens).rows,
      row.Pairwise (fun a b => horizontalSpacing ≤
        |(calculatePositions nodes links gens).pos a.id -
          (calculatePositions nodes links gens).pos b.id|) := by
  intro row hrow
  set st0 := calcPositionsInit nodes links gens with hst0
  have h0 : (joinIds st0.rows).Nodup := by
    have : (joinIds st0.rows).Perm (nodes.map (·.id)) :=
      sortedRows_flatten_perm nodes links gens
    exact this.nodup_iff.mpr h
  set st1 := onePass nodes links st0 with hst1
  set st2 := onePass nodes links st1 with hst2
  have h1 : (joinIds st1.rows).Nodup := onePass_nodup nodes links st0 h0
  have h2 : (joinIds st2.rows).Nodup := onePass_nodup nodes links st1 h1
  have hfinal : calculatePositions nodes links gens =
      centerPass nodes (sepPass (pullPass nodes links st2)) := rfl
  set stp := pullPass nodes links st2 with hstp
  have hp : (joinIds stp.rows).Nodup := h2
  obtain ⟨hperm, _, hchains⟩ := sepRows_spec stp.rows stp.pos hp
  have hrow_mem : row ∈ (sepPass stp).rows := by
    have : (calculatePositions nodes links gens).rows = (sepPass stp).rows := by
      rw [hfinal, centerPass_rows]
    exact this ▸ hrow
  have hchain : GapChain (sepPass stp).pos (row.map (·.id)) := hchains row hrow_mem
  have hchain2 : GapChain (centerPass nodes (sepPass stp)).pos (row.map (·.id)) := by
    refine List.Chain'.imp ?_ hchain
    intro a b hab
    rw [GapChain] at hchain
    calc horizontalSpacing ≤ (sepPass stp).pos b - (sepPass stp).pos a := hab
    _ = (centerPass nodes (sepPass stp)).pos b - (centerPass nodes (sepPass stp)).pos a :=
        (centerPass_diff nodes (sepPass stp) a b).symm
  have habs : List.Pairwise (fun a b : Str => horizontalSpacing ≤
      |(centerPass nodes (sepPass stp)).pos a - (centerPass nodes (sepPass stp)).pos b|)
      (row.map (·.id)) := by
    set p := (centerPass nodes (sepPass stp)).pos
    have hpos : (0 : ℚ) ≤ horizontalSpacing := by norm_num [horizontalSpacing]
    have htrans : Transitive (fun a b : Str => horizontalSpacing ≤ p b - p a) := by
      intro a b c hab hbc
      linarith
    letI : IsTrans Str (fun a b : Str => horizontalSpacing ≤ p b - p a) := ⟨htrans⟩
    have hpw : List.Pairwise (fun a b : Str => horizontalSpacing ≤ p b - p a)
        (row.map (·.id)) := List.chain'_iff_pairwise.mp hchain2
    refine hpw.imp ?_
    intro a b hab
    rw [abs_sub_comm, abs_of_nonneg (by linarith)]
    exact hab
  rw [hfinal]
  exact (List.pairwise_map).mp habs

/-- Witness for C2: the example document's two individuals (distinct
ids) with their pipeline generations. -/
theorem claim_C2_witness :
    List.Forall (fun row =>
      List.Pairwise (fun a b => horizontalSpacing ≤
        |(calculatePositions (nodesOf exampleDoc) (linksOf exampleDoc)
            [(str "@I1@", 0), (str "@I2@", 1)]).pos a.id -
          (calculatePositions (nodesOf exampleDoc) (linksOf exampleDoc)
            [(str "@I1@", 0), (str "@I2@", 1)]).pos b.id|) row)
      (calculatePositions (nodesOf exampleDoc) (linksOf exampleDoc)
        [(str "@I1@", 0), (str "@I2@", 1)]).rows :=
  List.forall_iff_forall_mem.mpr
    (claim_C2 (nodesOf exampleDoc) (linksOf exampleDoc)
      [(str "@I1@", 0), (str "@I2@", 1)] (by decide))

end ClaimC2

section ClaimC1

theorem mapFind_mapSet_self {κ α : Type} [DecidableEq κ] (m : List (κ × α)) (k : κ)
    (v : α) : mapFind (mapSet m k v) k = some v := by
  induction m with
  | nil => simp [mapSet, mapFind]
  | cons q t ih =>
    by_cases hk : q.1 = k
    · simp [mapSet, hk, mapFind]
    · simp [mapSet, hk, mapFind, ih]

theorem mapFind_mapSet_ne {κ α : Type} [DecidableEq κ] (m : List (κ × α)) {k k' : κ}
    (v : α) (h : k' ≠ k) : mapFind (mapSet m k v) k' = mapFind m k' := by
  induction m with
  | nil => simp [mapSet, mapFind, Ne.symm h]
  | cons q t ih =>
    by_cases hk : q.1 = k
    · simp only [mapSet, if_pos hk, mapFind]
      rw [if_neg (fun he : k = k' => h he.symm), if_neg (hk ▸ fun he : q.1 = k' => h (hk ▸ he).symm)]
    · simp only [mapSet, if_neg hk, mapFind]
      by_cases hq : q.1 = k'
      · rw [if_pos hq, if_pos hq]
      · rw [if_neg hq, if_neg hq, ih]

/-- The child list an adjacency map answers for a key. -/
theorem getMulti_addEdgeTo (m : List (Str × List Str)) (a b k : Str) :
    (mapFind (addEdgeTo m a b) k).getD [] =
      if a = k then (mapFind m k).getD [] ++ [b] else (mapFind m k).getD [] := by
  by_cases hak : a = k
  · subst hak
    cases hfind : mapFind m a with
    | none => simp [addEdgeTo, hfind, mapFind_mapSet_self]
    | some l => simp [addEdgeTo, hfind, mapFind_mapSet_self]
  · cases hfind : mapFind m a with
    | none => simp [addEdgeTo, hfind, mapFind_mapSet_ne _ _ (fun he => hak he.symm), hak]
    | some l => simp [addEdgeTo, hfind, mapFind_mapSet_ne _ _ (fun he => hak he.symm), hak]

theorem getMulti_foldl_addEdge (k : Str) :
    ∀ (ps : List (Str × Str)) (m : List (Str × List Str)),
      (mapFind (ps.foldl (fun m p => addEdgeTo m p.1 p.2) m) k).getD [] =
        (mapFind m k).getD [] ++ (ps.filter (fun p => p.1 = k)).map (·.2) := by
  intro ps
  induction ps with
  | nil => intro m; simp
  | cons p t ih =>
    intro m
    simp only [List.foldl_cons]
    rw [ih (addEdgeTo m p.1 p.2), getMulti_addEdgeTo]
    by_cases hk : p.1 = k
    · simp [hk, List.filter_cons, List.append_assoc]
    · simp [hk, List.filter_cons]

theorem mem_parentToChildren (links : List Link) (p c : Str) :
    c ∈ (mapFind (parentToChildren links) p).getD [] ↔ (p, c) ∈ pcPairs links := by
  rw [parentToChildren, getMulti_foldl_addEdge]
  simp only [mapFind, Option.getD_none, List.nil_append, List.mem_map,
    List.mem_filter]
  constructor
  · rintro ⟨⟨q1, q2⟩, ⟨hq, he⟩, rfl⟩
    have h1 : q1 = p := of_decide_eq_true he
    subst h1
    exact hq
  · intro h
    exact ⟨(p, c), ⟨h, by simp⟩, rfl⟩

theorem mapFind_addEdge_none (m : List (Str × List Str)) (a b k : Str) :
    mapFind (addEdgeTo m a b) k = none ↔ mapFind m k = none ∧ a ≠ k := by
  constructor
  · intro h
    by_cases hak : a = k
    · subst hak
      cases hfind : mapFind m a with
      | none => rw [addEdgeTo, hfind, mapFind_mapSet_self] at h; cases h
      | some l => rw [addEdgeTo, hfind, mapFind_mapSet_self] at h; cases h
    · cases hfind : mapFind m a with
      | none =>
        rw [addEdgeTo, hfind, mapFind_mapSet_ne _ _ (fun he => hak he.symm)] at h
        exact ⟨h, hak⟩
      | some l =>
        rw [addEdgeTo, hfind, mapFind_mapSet_ne _ _ (fun he => hak he.symm)] at h
        exact ⟨h, hak⟩
  · rintro ⟨h, hak⟩
    cases hfind : mapFind m a with
    | none => rw [addEdgeTo, hfind, mapFind_mapSet_ne _ _ (fun he => hak he.symm)]; exact h
    | some l => rw [addEdgeTo, hfind, mapFind_mapSet_ne _ _ (fun he => hak he.symm)]; exact h

theorem mapFind_c2p_none (links : List Link) (k : Str) :
    mapFind (childToParents links) k = none ↔
      ∀ q ∈ pcPairs links, q.2 ≠ k := by
  rw [childToParents]
  suffices h : ∀ (ps : List (Str × Str)) (m : List (Str × List Str)),
      mapFind (ps.foldl (fun m p => addEdgeTo m p.2 p.1) m) k = none ↔
        (mapFind m k = none ∧ ∀ q ∈ ps, q.2 ≠ k) by
    rw [h (pcPairs links) []]
    simp [mapFind]
  intro ps
  induction ps with
  | nil => intro m; simp
  | cons p t ih =>
    intro m
    simp only [List.foldl_cons]
    rw [ih (addEdgeTo m p.2 p.1), mapFind_addEdge_none]
    constructor
    · rintro ⟨⟨h1, h2⟩, h3⟩
      refine ⟨h1, ?_⟩
      intro q hq
      rcases List.mem_cons.mp hq with rfl | hmem
      · exact h2
      · exact h3 q hmem
    · rintro ⟨h1, h2⟩
      exact ⟨⟨h1, h2 p (by simp)⟩, fun q hq => h2 q (List.mem_cons_of_mem _ hq)⟩

theorem rootIds_no_incoming (nodes : List Node) (links : List Link) {r : Str}
    (h : r ∈ rootIds nodes links) :
    ∀ q ∈ pcPairs links, q.2 ≠ r := by
  rw [rootIds] at h
  rcases List.mem_map.mp h with ⟨n, hn, rfl⟩
  have := (List.mem_filter.mp hn).2
  exact (mapFind_c2p_none links n.id).mp (Option.isNone_iff_eq_none.mp this)

theorem mapFind_mem {κ α : Type} [DecidableEq κ] :
    ∀ {m : List (κ × α)} {k : κ} {v : α}, mapFind m k = some v → (k, v) ∈ m := by
  intro m
  induction m with
  | nil => intro k v h; cases h
  | cons q t ih =>
    intro k v h
    simp only [mapFind] at h
    by_cases hk : q.1 = k
    · rw [if_pos hk] at h
      cases h
      subst hk
      exact List.mem_cons_self _ _
    · rw [if_neg hk] at h
      exact List.mem_cons_of_mem _ (ih h)

theorem processChild_spec (gp : Int) (s : BfsState) (c : Str) :
    (∃ gc : Int, mapFind (processChild gp s c).gens c = some gc ∧ gp + 1 ≤ gc ∧
      (mapFind s.gens c = some gc ∨ c ∈ (processChild gp s c).queue))
    ∧ (∀ k, k ≠ c → mapFind (processChild gp s c).gens k = mapFind s.gens k)
    ∧ (∀ k : Str, ∀ g : Int, mapFind s.gens k = some g →
        ∃ g' : Int, mapFind (processChild gp s c).gens k = some g' ∧ g ≤ g')
    ∧ (∀ q ∈ s.queue, q ∈ (processChild gp s c).queue)
    ∧ (∀ q ∈ (processChild gp s c).queue, q ∈ s.queue ∨ q = c)
    ∧ (∀ p ∈ (processChild gp s c).gens, p ∈ s.gens ∨ p = (c, gp + 1))
    ∧ (∀ k : Str, ∀ g g' : Int, mapFind s.gens k = some g →
        mapFind (processChild gp s c).gens k = some g' → g ≠ g' →
        k ∈ (processChild gp s c).queue) := by
  by_cases henq : mapFind s.gens c = none ∨
      (∃ e : Int, mapFind s.gens c = some e ∧ gp + 1 > e)
  · have hps : processChild gp s c = ⟨s.queue ++ [c], mapSet s.gens c (gp + 1)⟩ := by
      rcases henq with h | ⟨e, h, hgt⟩
      · simp [processChild, h]
      · simp [processChild, h, hgt]
    rw [hps]
    refine ⟨⟨gp + 1, mapFind_mapSet_self _ _ _, le_refl _, Or.inr (by simp)⟩,
      ?_, ?_, ?_, ?_, ?_, ?_⟩
    · intro k hk
      exact mapFind_mapSet_ne _ _ hk
    · intro k g hg
      by_cases hk : k = c
      · subst hk
        rcases henq with h | ⟨e, h, hgt⟩
        · rw [h] at hg; cases hg
        · rw [h] at hg
          cases hg
          exact ⟨gp + 1, mapFind_mapSet_self _ _ _, le_of_lt hgt⟩
      · exact ⟨g, by rw [mapFind_mapSet_ne _ _ hk]; exact hg, le_refl g⟩
    · intro q hq
      simp [hq]
    · intro q hq
      simpa using List.mem_append.mp hq
    · intro p hp
      exact mem_mapSet hp
    · intro k g g' hg hg' hne
      by_cases hk : k = c
      · simp [hk]
      · rw [mapFind_mapSet_ne _ _ hk, hg] at hg'
        cases hg'
        exact absurd rfl hne
  · push_neg at henq
    obtain ⟨e, he⟩ : ∃ e : Int, mapFind s.gens c = some e := by
      cases hc : mapFind s.gens c with
      | none => exact absurd hc henq.1
      | some e => exact ⟨e, rfl⟩
    have hle : gp + 1 ≤ e := henq.2 e he
    have hps : processChild gp s c = s := by
      simp [processChild, he, not_lt.mpr hle]
    rw [hps]
    refine ⟨⟨e, he, hle, Or.inl he⟩, fun k _ => rfl, fun k g hg => ⟨g, hg, le_refl g⟩,
      fun q hq => hq, fun q hq => Or.inl hq, fun p hp => Or.inl hp, ?_⟩
    intro k g g' hg hg' hne
    rw [hg] at hg'
    exact absurd (Option.some.inj hg') hne

theorem processChildren_fold (gp : Int) :
    ∀ (cs : List Str) (s : BfsState),
      (∀ k : Str, ∀ g : Int, mapFind s.gens k = some g →
        ∃ g' : Int, mapFind (cs.foldl (processChild gp) s).gens k = some g' ∧ g ≤ g')
      ∧ (∀ k, k ∉ cs → mapFind (cs.foldl (processChild gp) s).gens k = mapFind s.gens k)
      ∧ (∀ q ∈ s.queue, q ∈ (cs.foldl (processChild gp) s).queue)
      ∧ (∀ c ∈ cs, ∃ gc : Int, mapFind (cs.foldl (processChild gp) s).gens c = some gc ∧
          gp + 1 ≤ gc ∧ (mapFind s.gens c = some gc ∨ c ∈ (cs.foldl (processChild gp) s).queue))
      ∧ (∀ q ∈ (cs.foldl (processChild gp) s).queue, q ∈ s.queue ∨ q ∈ cs)
      ∧ (∀ p ∈ (cs.foldl (processChild gp) s).gens,
          p ∈ s.gens ∨ (Prod.fst p ∈ cs ∧ Prod.snd p = gp + 1))
      ∧ (∀ k : Str, ∀ g g' : Int, mapFind s.gens k = some g →
          mapFind (cs.foldl (processChild gp) s).gens k = some g' → g ≠ g' →
          k ∈ (cs.foldl (processChild gp) s).queue) := by
  intro cs
  induction cs with
  | nil =>
    intro s
    refine ⟨fun k g h => ⟨g, h, le_refl g⟩, fun k _ => rfl, fun q h => h,
      fun c hc => absurd hc (List.not_mem_nil c), fun q h => Or.inl h,
      fun p hp => Or.inl hp, ?_⟩
    intro k g g' hg hg' hne
    simp only [List.foldl_nil] at hg'
    rw [hg] at hg'
    cases hg'
    exact absurd rfl hne
  | cons c cs ih =>
    intro s
    obtain ⟨hc_val, hc_ne, hc_mono, hc_qgrow, hc_qsrc, hc_mem, hc_chg⟩ :=
      processChild_spec gp s c
    obtain ⟨ih_mono, ih_ne, ih_qgrow, ih_proc, ih_qsrc, ih_mem, ih_chg⟩ :=
      ih (processChild gp s c)
    simp only [List.foldl_cons]
    refine ⟨?_, ?_, ?_, ?_, ?_, ?_, ?_⟩
    · intro k g hg
      obtain ⟨g1, hg1, hle1⟩ := hc_mono k g hg
      obtain ⟨g2, hg2, hle2⟩ := ih_mono k g1 hg1
      exact ⟨g2, hg2, le_trans hle1 hle2⟩
    · intro k hk
      simp only [List.mem_cons, not_or] at hk
      rw [ih_ne k hk.2, hc_ne k hk.1]
    · intro q hq
      exact ih_qgrow q (hc_qgrow q hq)
    · intro c' hc'
      rcases List.mem_cons.mp hc' with rfl | hmem
      · obtain ⟨gc, hgc, hge, hsrc⟩ := hc_val
        obtain ⟨gc2, hgc2, hle2⟩ := ih_mono c' gc hgc
        refine ⟨gc2, hgc2, le_trans hge hle2, ?_⟩
        rcases hsrc with hold | hq
        · by_cases hsame : gc2 = gc
          · exact Or.inl (hsame ▸ hold)
          · exact Or.inr (ih_chg c' gc gc2 hgc hgc2 (fun he => hsame he.symm))
        · exact Or.inr (ih_qgrow c' hq)
      · obtain ⟨gc, h1, h2, hsrc⟩ := ih_proc c' hmem
        refine ⟨gc, h1, h2, ?_⟩
        rcases hsrc with hold1 | hq1
        · by_cases hcc : c' = c
          · subst hcc
            obtain ⟨gc0, hgc0, _, hsrc0⟩ := hc_val
            rw [hold1] at hgc0
            cases hgc0
            rcases hsrc0 with hold0 | hq0
            · exact Or.inl hold0
            · exact Or.inr (ih_qgrow c' hq0)
          · exact Or.inl (by rw [← hc_ne c' hcc]; exact hold1)
        · exact Or.inr hq1
    · intro q hq
      rcases ih_qsrc q hq with hq1 | hq1
      · rcases hc_qsrc q hq1 with hq2 | hq2
        · exact Or.inl hq2
        · exact Or.inr (hq2 ▸ List.mem_cons_self _ _)
      · exact Or.inr (List.mem_cons_of_mem _ hq1)
    · intro p hp
      rcases ih_mem p hp with hp1 | hp1
      · rcases hc_mem p hp1 with hp2 | hp2
        · exact Or.inl hp2
        · exact Or.inr ⟨by rw [hp2]; exact List.mem_cons_self _ _, by rw [hp2]⟩
      · exact Or.inr ⟨List.mem_cons_of_mem _ hp1.1, hp1.2⟩
    · intro k g g' hg hg' hne
      by_cases hk1 : k ∈ (processChild gp s c).queue
      · exact ih_qgrow k hk1
      · obtain ⟨g1, hg1, _⟩ := hc_mono k g hg
        by_cases hsame : g = g1
        · exact ih_chg k g1 g' hg1 hg' (hsame ▸ hne)
        · exact absurd (hc_chg k g g1 hg hg1 hsame) hk1

theorem bfsStep_inv (E : List (Str × Str)) (roots : List Str)
    (p2c : List (Str × List Str))
    (hE : ∀ p c : Str, c ∈ (mapFind p2c p).getD [] ↔ (p, c) ∈ E)
    (hroots : ∀ r ∈ roots, ∀ q ∈ E, Prod.snd q ≠ r)
    (s : BfsState) (hinv : BfsInv E roots s) :
    BfsInv E roots (bfsStep p2c s) := by
  obtain ⟨inv3, inv1, inv2, inv4⟩ := hinv
  cases hq : s.queue with
  | nil =>
    rw [show bfsStep p2c s = s by simp [bfsStep, hq]]
    exact ⟨inv3, inv1, inv2, inv4⟩
  | cons p0 rest =>
    obtain ⟨gp0, hgp0⟩ := inv3 p0 (by rw [hq]; exact List.mem_cons_self _ _)
    have hstep : bfsStep p2c s =
        ((mapFind p2c p0).getD []).foldl (processChild gp0) ⟨rest, s.gens⟩ := by
      simp [bfsStep, hq, hgp0]
    set cs := (mapFind p2c p0).getD [] with hcs
    have hcs_edge : ∀ c ∈ cs, (p0, c) ∈ E := fun c hc => (hE p0 c).mp hc
    obtain ⟨f_mono, f_ne, f_qgrow, f_proc, f_qsrc, f_mem, f_chg⟩ :=
      processChildren_fold gp0 cs ⟨rest, s.gens⟩
    rw [hstep]
    refine ⟨?_, ?_, ?_, ?_⟩
    · -- queued ids are assigned
      intro q hqmem
      rcases f_qsrc q hqmem with hq1 | hq1
      · obtain ⟨g, hg⟩ := inv3 q (by rw [hq]; exact List.mem_cons_of_mem _ hq1)
        obtain ⟨g', hg', _⟩ := f_mono q g hg
        exact ⟨g', hg'⟩
      · obtain ⟨gc, hgc, _, _⟩ := f_proc q hq1
        exact ⟨gc, hgc⟩
    · -- every entry's generation is a path length
      intro p hp
      rcases f_mem p hp with hp1 | hp1
      · exact inv1 p hp1
      · obtain ⟨r, hr, L, hL, hreach⟩ := inv1 (p0, gp0) (mapFind_mem hgp0)
        have hL2 : gp0 = (L : Int) := hL
        have hreach2 : ReachN E r p0 L := hreach
        refine ⟨r, hr, L + 1, ?_, ?_⟩
        · rw [hp1.2, hL2]
          push_cast
          ring
        · exact ReachN.step hreach2 (hcs_edge _ hp1.1)
    · -- edge slack or queued parent
      intro p c hpc gp hgp
      rcases f_mem (p, gp) (mapFind_mem hgp) with hold | hnew
      · -- p's entry existed before the step; relate to its pre-step lookup
        by_cases hpcs : p ∈ cs
        · obtain ⟨gc, hgc, hge, hsrc⟩ := f_proc p hpcs
          rw [hgp] at hgc
          cases hgc
          rcases hsrc with holdv | hqv
          · -- p's value is unchanged from before the whole step
            rcases inv2 p c hpc gp holdv with ⟨gc', hgc', hge'⟩ | hmem
            · obtain ⟨gc2, hgc2, hle2⟩ := f_mono c gc' hgc'
              exact Or.inl ⟨gc2, hgc2, le_trans hge' hle2⟩
            · rw [hq] at hmem
              rcases List.mem_cons.mp hmem with rfl | hrest
              · rw [hgp0] at holdv
                cases holdv
                have hcmem : c ∈ cs := (hE p c).mpr hpc
                obtain ⟨gc3, hgc3, hge3, _⟩ := f_proc c hcmem
                exact Or.inl ⟨gc3, hgc3, hge3⟩
              · exact Or.inr (f_qgrow p hrest)
          · exact Or.inr hqv
        · -- p untouched by the fold
          have hpre : mapFind s.gens p = some gp := by
            rw [← f_ne p hpcs]
            exact hgp
          rcases inv2 p c hpc gp hpre with ⟨gc', hgc', hge'⟩ | hmem
          · obtain ⟨gc2, hgc2, hle2⟩ := f_mono c gc' hgc'
            exact Or.inl ⟨gc2, hgc2, le_trans hge' hle2⟩
          · rw [hq] at hmem
            rcases List.mem_cons.mp hmem with rfl | hrest
            · have hgpeq : gp = gp0 := by
                rw [hgp0] at hpre
                exact (Option.some.inj hpre).symm
              subst hgpeq
              have hcmem : c ∈ cs := (hE p c).mpr hpc
              obtain ⟨gc3, hgc3, hge3, _⟩ := f_proc c hcmem
              exact Or.inl ⟨gc3, hgc3, hge3⟩
            · exact Or.inr (f_qgrow p hrest)
      · -- p was (re)assigned to gp0 + 1 during the fold, so it was enqueued
        have hpcs : p ∈ cs := hnew.1
        obtain ⟨gc, hgc, hge, hsrc⟩ := f_proc p hpcs
        rw [hgp] at hgc
        cases hgc
        rcases hsrc with holdv | hqv
        · rcases inv2 p c hpc gp holdv with ⟨gc', hgc', hge'⟩ | hmem
          · obtain ⟨gc2, hgc2, hle2⟩ := f_mono c gc' hgc'
            exact Or.inl ⟨gc2, hgc2, le_trans hge' hle2⟩
          · rw [hq] at hmem
            rcases List.mem_cons.mp hmem with rfl | hrest
            · rw [hgp0] at holdv
              cases holdv
              have hcmem : c ∈ cs := (hE p c).mpr hpc
              obtain ⟨gc3, hgc3, hge3, _⟩ := f_proc c hcmem
              exact Or.inl ⟨gc3, hgc3, hge3⟩
            · exact Or.inr (f_qgrow p hrest)
        · exact Or.inr hqv
    · -- roots keep generation 0
      intro r hr
      have hrncs : r ∉ cs := fun hmem => hroots r hr (p0, r) (hcs_edge r hmem) rfl
      rw [f_ne r hrncs]
      exact inv4 r hr

theorem inv_empty_queue {E : List (Str × Str)} {roots : List Str} {s : BfsState}
    (h : BfsInv E roots s) (hq : s.queue = []) : BfsInv E roots ⟨[], s.gens⟩ := by
  obtain ⟨_, inv1, inv2, inv4⟩ := h
  refine ⟨by simp, inv1, ?_, inv4⟩
  intro p c hpc gp hgp
  rcases inv2 p c hpc gp hgp with hleft | hmem
  · exact Or.inl hleft
  · rw [hq] at hmem
    cases hmem

theorem bfsLoop_inv (E : List (Str × Str)) (roots : List Str)
    (p2c : List (Str × List Str))
    (hE : ∀ p c : Str, c ∈ (mapFind p2c p).getD [] ↔ (p, c) ∈ E)
    (hroots : ∀ r ∈ roots, ∀ q ∈ E, Prod.snd q ≠ r) :
    ∀ (f : Nat) (s : BfsState), BfsInv E roots s →
      ∀ gens, bfsLoop p2c f s = some gens → BfsInv E roots ⟨[], gens⟩ := by
  intro f
  induction f with
  | zero =>
    intro s hinv gens hloop
    simp only [bfsLoop] at hloop
    by_cases hq : s.queue.isEmpty
    · rw [if_pos hq] at hloop
      cases hloop
      exact inv_empty_queue hinv (List.isEmpty_iff.mp hq)
    · rw [if_neg hq] at hloop
      cases hloop
  | succ n ih =>
    intro s hinv gens hloop
    simp only [bfsLoop] at hloop
    by_cases hq : s.queue.isEmpty
    · rw [if_pos hq] at hloop
      cases hloop
      exact inv_empty_queue hinv (List.isEmpty_iff.mp hq)
    · rw [if_neg hq] at hloop
      exact ih _ (bfsStep_inv E roots p2c hE hroots s hinv) gens hloop

theorem mapFind_init_roots (k : Str) :
    ∀ (roots : List Str) (m : List (Str × Int)),
      mapFind (roots.foldl (fun g r => mapSet g r 0) m) k =
        if k ∈ roots then some 0 else mapFind m k := by
  intro roots
  induction roots with
  | nil => intro m; simp
  | cons r rs ih =>
    intro m
    simp only [List.foldl_cons]
    rw [ih (mapSet m r 0)]
    by_cases hk : k ∈ rs
    · simp [hk]
    · by_cases hkr : k = r
      · subst hkr
        simp [hk, mapFind_mapSet_self]
      · simp [hk, hkr, mapFind_mapSet_ne _ _ hkr]

theorem init_gens_mem :
    ∀ (roots : List Str) (m : List (Str × Int)),
      ∀ p ∈ roots.foldl (fun g r => mapSet g r 0) m,
        p ∈ m ∨ (Prod.fst p ∈ roots ∧ Prod.snd p = 0) := by
  intro roots
  induction roots with
  | nil => intro m p hp; exact Or.inl hp
  | cons r rs ih =>
    intro m p hp
    simp only [List.foldl_cons] at hp
    rcases ih (mapSet m r 0) p hp with hp1 | hp1
    · rcases mem_mapSet hp1 with hp2 | hp2
      · exact Or.inl hp2
      · exact Or.inr ⟨by rw [hp2]; exact List.mem_cons_self _ _, by rw [hp2]⟩
    · exact Or.inr ⟨List.mem_cons_of_mem _ hp1.1, hp1.2⟩

theorem initBfs_inv (nodes : List Node) (links : List Link) :
    BfsInv (pcPairs links) (rootIds nodes links) (initBfs nodes links) := by
  refine ⟨?_, ?_, ?_, ?_⟩
  · intro q hq
    refine ⟨0, ?_⟩
    simp only [initBfs] at hq ⊢
    rw [mapFind_init_roots, if_pos hq]
  · intro p hp
    simp only [initBfs] at hp
    rcases init_gens_mem _ [] p hp with hp1 | hp1
    · cases hp1
    · exact ⟨p.1, hp1.1, 0, by simpa using hp1.2, ReachN.refl p.1⟩
  · intro p c hpc gp hgp
    simp only [initBfs] at hgp ⊢
    right
    rw [mapFind_init_roots] at hgp
    by_cases hp : p ∈ rootIds nodes links
    · exact hp
    · rw [if_neg hp] at hgp
      cases hgp
  · intro r hr
    simp only [initBfs]
    rw [mapFind_init_roots, if_pos hr]

theorem reach_bound {E : List (Str × Str)} {gens : List (Str × Int)}
    (hfix : ∀ p c : Str, (p, c) ∈ E → ∀ gp : Int, mapFind gens p = some gp →
      ∃ gc : Int, mapFind gens c = some gc ∧ gp + 1 ≤ gc)
    {r : Str} (hr0 : mapFind gens r = some 0) :
    ∀ {n : Str} {L : Nat}, ReachN E r n L →
      ∃ gn : Int, mapFind gens n = some gn ∧ (L : Int) ≤ gn := by
  intro n L hreach
  induction hreach with
  | refl => exact ⟨0, hr0, by simp⟩
  | step hpath hedge ih =>
    obtain ⟨gp, hgp, hle⟩ := ih
    obtain ⟨gc, hgc, hge⟩ := hfix _ _ hedge gp hgp
    refine ⟨gc, hgc, ?_⟩
    push_cast
    omega

theorem fallback_preserves (nodes : List Node) :
    ∀ (g : List (Str × Int)) (k : Str) (v : Int), mapFind g k = some v →
      mapFind (fallbackGens nodes g) k = some v := by
  induction nodes with
  | nil => intro g k v h; exact h
  | cons n t ih =>
    intro g k v h
    simp only [fallbackGens, List.foldl_cons]
    apply ih
    cases hfind : mapFind g n.id with
    | none =>
      simp only [hfind]
      have hk : k ≠ n.id := fun he => by rw [he, hfind] at h; cases h
      rw [mapFind_mapSet_ne _ _ hk]
      exact h
    | some e =>
      simp only [hfind]
      exact h

theorem fallback_mem (nodes : List Node) :
    ∀ (g : List (Str × Int)), ∀ p ∈ fallbackGens nodes g,
      p ∈ g ∨ ∃ m ∈ nodes, Prod.snd p = estimateGen m := by
  induction nodes with
  | nil => intro g p hp; exact Or.inl hp
  | cons n t ih =>
    intro g p hp
    simp only [fallbackGens, List.foldl_cons] at hp
    rcases ih _ p hp with hp1 | hp1
    · cases hfind : mapFind g n.id with
      | none =>
        simp only [hfind] at hp1
        rcases mem_mapSet hp1 with hp2 | hp2
        · exact Or.inl hp2
        · exact Or.inr ⟨n, List.mem_cons_self _ _, by rw [hp2]⟩
      | some e =>
        simp only [hfind] at hp1
        exact Or.inl hp1
    · obtain ⟨m, hm, hv⟩ := hp1
      exact Or.inr ⟨m, List.mem_cons_of_mem _ hm, hv⟩

theorem estimateGen_nonneg (n : Node) : 0 ≤ estimateGen n := by
  cases hy : extractYear (n.birth.map (·.date)) with
  | none => simp [estimateGen, hy]
  | some y => simp [estimateGen, hy]

theorem foldl_min_le_init : ∀ (t : List (Str × Int)) (v : Int),
    t.foldl (fun a p => min a p.2) v ≤ v := by
  intro t
  induction t with
  | nil => intro v; exact le_refl v
  | cons q t ih =>
    intro v
    exact le_trans (ih (min v q.2)) (min_le_left _ _)

theorem foldl_min_le_mem : ∀ (t : List (Str × Int)) (v : Int), ∀ p ∈ t,
    t.foldl (fun a p => min a p.2) v ≤ Prod.snd p := by
  intro t
  induction t with
  | nil => intro v p hp; cases hp
  | cons q t ih =>
    intro v p hp
    rcases List.mem_cons.mp hp with rfl | hmem
    · exact le_trans (foldl_min_le_init t (min v p.2)) (min_le_right _ _)
    · exact ih (min v q.2) p hmem

theorem le_foldl_min : ∀ (t : List (Str × Int)) (v c : Int), c ≤ v →
    (∀ p ∈ t, c ≤ Prod.snd p) → c ≤ t.foldl (fun a p => min a p.2) v := by
  intro t
  induction t with
  | nil => intro v c h _; exact h
  | cons q t ih =>
    intro v c hv hall
    exact ih _ c (le_min hv (hall q (List.mem_cons_self _ _)))
      (fun p hp => hall p (List.mem_cons_of_mem _ hp))

theorem minVal_zero (g : List (Str × Int)) (h0 : ∃ p ∈ g, Prod.snd p = 0)
    (hnn : ∀ p ∈ g, 0 ≤ Prod.snd p) : minVal g = some 0 := by
  cases g with
  | nil =>
    obtain ⟨p, hp, _⟩ := h0
    cases hp
  | cons q t =>
    simp only [minVal, Option.some.injEq]
    have hle : t.foldl (fun a p => min a p.2) q.2 ≤ 0 := by
      obtain ⟨p, hp, hp0⟩ := h0
      rcases List.mem_cons.mp hp with rfl | hmem
      · exact hp0 ▸ foldl_min_le_init t p.2
      · exact hp0 ▸ foldl_min_le_mem t q.2 p hmem
    have hge : 0 ≤ t.foldl (fun a p => min a p.2) q.2 :=
      le_foldl_min t q.2 0 (hnn q (List.mem_cons_self _ _))
        (fun p hp => hnn p (List.mem_cons_of_mem _ hp))
    omega

theorem normalize_id (g : List (Str × Int)) (h : minVal g = some 0) :
    normalizeGens g = g := by
  simp [normalizeGens, h]

/-- Claim C1: whenever `calculateGenerations` completes, every node
reachable from the root set carries, in the final generation map, a
generation that is the length of an actual root-to-node path and an
upper bound on the lengths of all root-to-node paths — i.e. the length
of the longest such path, so a node reachable via paths of different
depths always keeps the deepest value. -/
theorem claim_C1 (fuel : Nat) (nodes : List Node) (links : List Link)
    (gens : List (Str × Int)) (hrun : calculateGenerations fuel nodes links = some gens)
    (r n : Str) (hr : r ∈ rootIds nodes links) (L : Nat)
    (hreach : ReachN (pcPairs links) r n L) :
    ∃ g : Nat, mapFind gens n = some (g : Int) ∧
      (∃ x ∈ rootIds nodes links, ReachN (pcPairs links) x n g) ∧
      (∀ x ∈ rootIds nodes links, ∀ M : Nat, ReachN (pcPairs links) x n M → M ≤ g) := by
  simp only [calculateGenerations, Option.map_eq_some'] at hrun
  obtain ⟨g0, hloop, rfl⟩ := hrun
  have hroots : ∀ x ∈ rootIds nodes links, ∀ q ∈ pcPairs links, Prod.snd q ≠ x :=
    fun x hx => rootIds_no_incoming nodes links hx
  have hfinal : BfsInv (pcPairs links) (rootIds nodes links) ⟨[], g0⟩ :=
    bfsLoop_inv _ _ _ (mem_parentToChildren links) hroots fuel _
      (initBfs_inv nodes links) g0 hloop
  obtain ⟨_, inv1, inv2, inv4⟩ := hfinal
  have hfix : ∀ p c : Str, (p, c) ∈ pcPairs links → ∀ gp : Int,
      mapFind g0 p = some gp → ∃ gc : Int, mapFind g0 c = some gc ∧ gp + 1 ≤ gc := by
    intro p c hpc gp hgp
    rcases inv2 p c hpc gp hgp with h | h
    · exact h
    · cases h
  have hr0 : mapFind g0 r = some 0 := inv4 r hr
  obtain ⟨gn, hgn, _⟩ := reach_bound hfix hr0 hreach
  obtain ⟨r0, hr0mem, L0, hL0, hreach0⟩ := inv1 (n, gn) (mapFind_mem hgn)
  have hL0' : gn = (L0 : Int) := hL0
  have hreach0' : ReachN (pcPairs links) r0 n L0 := hreach0
  have hminzero : minVal (fallbackGens nodes g0) = some 0 := by
    apply minVal_zero
    · exact ⟨(r, 0), mapFind_mem (fallback_preserves nodes g0 r 0 hr0), rfl⟩
    · intro p hp
      rcases fallback_mem nodes g0 p hp with hp1 | hp1
      · obtain ⟨_, _, Lp, hLp, _⟩ := inv1 p hp1
        rw [hLp]
        exact Int.natCast_nonneg _
      · obtain ⟨m, _, hm⟩ := hp1
        rw [hm]
        exact estimateGen_nonneg m
  rw [normalize_id _ hminzero]
  refine ⟨L0, ?_, ⟨r0, hr0mem, hreach0'⟩, ?_⟩
  · rw [← hL0']
    exact fallback_preserves nodes g0 n gn hgn
  · intro x hx M hreachM
    have hx0 : mapFind g0 x = some 0 := inv4 x hx
    obtain ⟨gn2, hgn2, hlb2⟩ := reach_bound hfix hx0 hreachM
    rw [hgn] at hgn2
    cases hgn2
    have hfin : (M : Int) ≤ (L0 : Int) := hL0' ▸ hlb2
    exact_mod_cast hfin

/-- Witness for C1: on the example document, `I2` (child of root `I1`)
receives generation 1, the length of its unique root path. -/
theorem claim_C1_witness :
    ∃ g : Nat, mapFind [((str "@I1@" : Str), (0 : Int)), (str "@I2@", 1)]
        (str "@I2@") = some (g : Int) ∧
      (∃ x ∈ rootIds (nodesOf exampleDoc) (linksOf exampleDoc),
        ReachN (pcPairs (linksOf exampleDoc)) x (str "@I2@") g) ∧
      (∀ x ∈ rootIds (nodesOf exampleDoc) (linksOf exampleDoc), ∀ M : Nat,
        ReachN (pcPairs (linksOf exampleDoc)) x (str "@I2@") M → M ≤ g) :=
  claim_C1 3 (nodesOf exampleDoc) (linksOf exampleDoc)
    [(str "@I1@", 0), (str "@I2@", 1)] (by decide) (str "@I1@") (str "@I2@")
    (by decide) 1 (ReachN.step (ReachN.refl _) (by decide))

end ClaimC1

